import Mathlib

/-!
Shallow embedding of the gosh-model repository (gosh-rs/gosh-model): the
external-process compute orchestration layer, its line-oriented result codec
(src/model_properties.rs), the VASP interactive stdout scanner (src/vasp.rs),
the interactive task driver (src/task.rs) and the blackbox orchestrator
(src/blackbox.rs).

Modelling conventions, used throughout:

* Rust f64 values are modelled as exact rationals (ℚ).  Number parsing is
  exact (no rounding to binary), and the non-finite values inf/NaN of f64
  are not representable; no claim below depends on them.
* A text stream is modelled as its list of lines (Rust str::lines), each
  line a list of characters without the terminating newline.  Rust string
  whitespace (char::is_whitespace, and nom space0/space1 which accept
  space and tab; lines contain no newline) is modelled by the predicate
  wsp below.
* Fallible Rust code returns Res: Res.ok carries a value, Res.err is an
  ordinary Result::Err return (anyhow bail! / error propagation with ?),
  and Res.panic is a Rust panic (assert!, expect, out-of-range indexing).
  The two must be distinguished because several spec claims assert that a
  failure is an error return and not a panic.
* Rust's HashMap has unspecified iteration order; section records are
  modelled as an insertion-ordered association list.  Every theorem below
  is insensitive to this order (single-section documents, or documents
  whose sections all succeed and write disjoint fields).
* The fixed-width space padding of the numeric formats {:-20.12E} and
  {:19.16} is dropped: every consumer splits on whitespace or trims
  before parsing, so the padding is unobservable in the properties below.
-/

abbrev Chars := List Char

/-- Outcome of a fallible Rust computation: ordinary value, Result::Err,
or panic. -/
inductive Res (α : Type) : Type where
  | ok : α → Res α
  | err : Res α
  | panic : Res α
deriving DecidableEq, Repr

/-- Whitespace as used by the modelled code (Rust trim / split_whitespace
and nom space parsers, restricted to the characters that can occur in a
line). -/
def wsp (c : Char) : Bool := c = ' ' || c = '\t' || c = '\n' || c = '\r'

/-- ASCII digit test (Rust char::is_ascii_digit, nom digit1). -/
def isDigitCh (c : Char) : Bool := 48 ≤ c.toNat && c.toNat ≤ 57

/-- Numeric value of a digit character. -/
def digitVal (c : Char) : ℕ := c.toNat - 48

/-- Digit character of a value below ten. -/
def digitCh (d : ℕ) : Char := Char.ofNat (48 + d)

/-- Rust str::trim on one line. -/
def trimChars (l : Chars) : Chars := ((l.dropWhile wsp).reverse.dropWhile wsp).reverse

/-- Rust str::starts_with. -/
def begins : Chars → Chars → Bool
  | [], _ => true
  | _ :: _, [] => false
  | p :: ps, c :: cs => p = c && begins ps cs

/-- Rust str::ends_with. -/
def endsIn (p l : Chars) : Bool := begins p.reverse l.reverse

/-- Worker for splitWs, accumulating the current token reversed. -/
def splitWsAux : Chars → Chars → List Chars
  | [], cur => if cur = [] then [] else [cur.reverse]
  | c :: cs, cur =>
    if wsp c then
      (if cur = [] then splitWsAux cs [] else cur.reverse :: splitWsAux cs [])
    else splitWsAux cs (c :: cur)

/-- Rust str::split_whitespace (no empty tokens). -/
def splitWs (l : Chars) : List Chars := splitWsAux l []

/-- Rust str::split_once for the byte that introduces a key=value pair. -/
def splitOnceEq : Chars → Option (Chars × Chars)
  | [] => none
  | c :: cs =>
    if c = '=' then some ([], cs)
    else (splitOnceEq cs).map (fun p => (c :: p.1, p.2))

/-- Rust slice::split: split at (and drop) every element satisfying p,
keeping empty pieces; n separators yield n+1 pieces. -/
def splitP {α : Type} (p : α → Bool) : List α → List (List α)
  | [] => [[]]
  | a :: as =>
    if p a then [] :: splitP p as
    else
      match splitP p as with
      | [] => [[a]]
      | c :: cs => (a :: c) :: cs

/-- Little-endian decimal digits of a natural number, with explicit fuel so
that the definition is structural (kernel-reducible). -/
def natDigitsAux : ℕ → ℕ → List ℕ
  | 0, _ => []
  | fuel + 1, n => if n = 0 then [] else n % 10 :: natDigitsAux fuel (n / 10)

/-- Little-endian decimal digits (empty for zero). -/
def natDigits (n : ℕ) : List ℕ := natDigitsAux n n

/-- Decimal rendering of a natural number ("0" for zero). -/
def natChars (n : ℕ) : Chars :=
  if n = 0 then ['0'] else (natDigits n).reverse.map digitCh

/-- Decimal rendering of n left-padded with zeros to k characters. -/
def padChars (k : ℕ) (n : ℕ) : Chars :=
  let ds := (natDigits n).reverse.map digitCh
  List.replicate (k - ds.length) '0' ++ ds

/-- Decimal rendering of an integer (Rust Display for the exponent of the
scientific-notation format: no plus sign). -/
def intChars (z : ℤ) : Chars :=
  if z < 0 then '-' :: natChars z.natAbs else natChars z.natAbs

/-- Value of a big-endian digit string. -/
def natOfDigits (cs : Chars) : ℕ := cs.foldl (fun n c => 10 * n + digitVal c) 0

/-- Floor of base-ten logarithm, with explicit fuel so that the definition
is structural. -/
def natLog10Aux : ℕ → ℕ → ℕ
  | 0, _ => 0
  | fuel + 1, n => if n < 10 then 0 else natLog10Aux fuel (n / 10) + 1

/-- Floor of the base-ten logarithm of a positive natural number. -/
def natLog10 (n : ℕ) : ℕ := natLog10Aux n n

/-- Optional leading sign of a numeric literal. -/
def leadSign (cs : Chars) : ℚ × Chars :=
  match cs with
  | '+' :: r => (1, r)
  | '-' :: r => (-1, r)
  | _ => (1, cs)

/-- Exponent part of a float literal: nom's optional exponent; on a missing
exponent digit string nothing is consumed. -/
def expPart (mant : ℚ) (whole : Chars) (r3 : Chars) : Option (ℚ × Chars) :=
  let es : ℤ × Chars :=
    match r3 with
    | '+' :: r => (1, r)
    | '-' :: r => (-1, r)
    | _ => (1, r3)
  let ds := es.2.takeWhile isDigitCh
  if ds = [] then some (mant, whole)
  else some (mant * 10 ^ (es.1 * (natOfDigits ds : ℤ)), es.2.dropWhile isDigitCh)

/-- Fractional part of a float literal: digits after an optional dot. -/
def fracSplit (r1 : Chars) : Chars × Chars :=
  match r1 with
  | '.' :: r2 => (r2.takeWhile isDigitCh, r2.dropWhile isDigitCh)
  | _ => ([], r1)

/-- Exponent dispatch of a float literal: an optional e/E marker. -/
def expDispatch (mant : ℚ) (w : Chars) : Option (ℚ × Chars) :=
  match w with
  | 'e' :: r3 => expPart mant w r3
  | 'E' :: r3 => expPart mant w r3
  | _ => some (mant, w)

/-- Maximal float literal at the head of the input (nom double /
recognize_float; also the grammar accepted by f64::from_str up to the
non-finite spellings): [+-]? (digit+ (. digit*)? | . digit+) ([eE][+-]?digit+)?.
Returns the value and the unconsumed rest. -/
def leadFloat (cs : Chars) : Option (ℚ × Chars) :=
  let s := leadSign cs
  let ip := s.2.takeWhile isDigitCh
  let r1 := s.2.dropWhile isDigitCh
  let fr := fracSplit r1
  if ip = [] ∧ fr.1 = [] then none
  else
    let mant : ℚ := s.1 * (natOfDigits (ip ++ fr.1) : ℚ) / 10 ^ fr.1.length
    expDispatch mant fr.2

/-- Rust str::parse::<f64> (entire string must be the literal). -/
def parseFloat (cs : Chars) : Option ℚ :=
  match leadFloat cs with
  | some (q, []) => some q
  | _ => none

/-- Exponent of the normalized scientific form of a positive rational:
the unique e with 10^e ≤ a < 10^(e+1). -/
def sciExp (a : ℚ) : ℤ :=
  if 1 ≤ a then (natLog10 ⌊a⌋.toNat : ℤ)
  else -((natLog10 (⌈a⁻¹⌉.toNat - 1) : ℤ) + 1)

/-- Thirteen-digit mantissa of the scientific form: ⌊a·10^(12-e)⌋. -/
def sciMant (a : ℚ) (e : ℤ) : ℕ := (⌊a * (10 : ℚ) ^ ((12 : ℤ) - e)⌋).toNat

/-- The numeric format of the result codec serializer,
format!("{:-20.12E}", x): scientific notation with one leading digit and
twelve fractional digits (width padding dropped, truncation in place of
round-half-even; exact on all values the format represents exactly). -/
def sci12 (q : ℚ) : Chars :=
  if q = 0 then ('0' :: '.' :: List.replicate 12 '0') ++ ['E', '0']
  else
    let a := |q|
    let e := sciExp a
    let d := sciMant a e
    (if q < 0 then ['-'] else []) ++
      (digitCh (d / 10 ^ 12) :: '.' :: padChars 12 (d % 10 ^ 12)) ++
      ('E' :: intChars e)

/-- The numeric format of the interactive position feed,
format!("{:19.16}", x): fixed-point with sixteen fractional digits (width
padding dropped, truncation in place of rounding). -/
def fmt16 (q : ℚ) : Chars :=
  (if q < 0 then ['-'] else []) ++ natChars ⌊|q|⌋.toNat ++
    ('.' :: padChars 16 ((⌊|q| * 10 ^ 16⌋).toNat % 10 ^ 16))

/-! ## Result codec (src/model_properties.rs) -/

/-- The computed model properties record (struct Computed).  A molecule is
modelled as its atom list: symbol and position. -/
structure Computed where
  energy : Option ℚ := none
  forces : Option (List (ℚ × ℚ × ℚ)) := none
  dipole : Option (ℚ × ℚ × ℚ) := none
  molecule : Option (List (Chars × (ℚ × ℚ × ℚ))) := none
  force_constants : Option (List (ℚ × ℚ × ℚ)) := none
deriving DecidableEq, Repr

/-- A parsed section header (struct Header). -/
structure Header where
  name : Chars
  unit_factor : ℚ
deriving DecidableEq, Repr

/-- The key=value scan of the tokens after the section name: the last
unit_factor assignment wins; a malformed float is an error (the ? on
v.parse::<f64>()). -/
def unitFactorOf : List Chars → ℚ → Res ℚ
  | [], f => Res.ok f
  | p :: ps, f =>
    match splitOnceEq p with
    | some kv =>
      if kv.1 = "unit_factor".data then
        match parseFloat kv.2 with
        | some v => unitFactorOf ps v
        | none => Res.err
      else unitFactorOf ps f
    | none => unitFactorOf ps f

/-- impl FromStr for Header: requires the leading sentinel; indexing
parts[0] on a bare sentinel is a panic; unknown key=value tokens are
ignored. -/
def headerFromStr (s : Chars) : Res Header :=
  match s with
  | '@' :: t =>
    match splitWs t with
    | [] => Res.panic
    | nm :: ps =>
      match unitFactorOf ps 1 with
      | Res.ok f => Res.ok ⟨nm, f⟩
      | Res.err => Res.err
      | Res.panic => Res.panic
  | _ => Res.err

/-- HashMap entry().or_insert(vec![]).push(line): append a data line to
its header's record, keeping first-insertion order. -/
def pushRecord : List (Chars × List Chars) → Chars → Chars → List (Chars × List Chars)
  | [], k, v => [(k, [v])]
  | (k0, vs) :: rest, k, v =>
    if k0 = k then (k0, vs ++ [v]) :: rest else (k0, vs) :: pushRecord rest k v

/-- The line scan of parse_model_results_single: track the most recent
header line (trimmed), push every other line (trimmed) onto the current
header's record; lines before any header are dropped. -/
def collectRecords : List Chars → Option Chars → List (Chars × List Chars) → List (Chars × List Chars)
  | [], _, acc => acc
  | l :: ls, hdr, acc =>
    let t := trimChars l
    if begins "@".data t then collectRecords ls (some t) acc
    else
      match hdr with
      | some k => collectRecords ls hdr (pushRecord acc k t)
      | none => collectRecords ls hdr acc

/-- The forces section arm: each line must split into exactly three
whitespace tokens, each a float, scaled by the unit factor; a bad token
count or float is an error (bail! / ?). -/
def parseForcesLines (factor : ℚ) : List Chars → Res (List (ℚ × ℚ × ℚ))
  | [] => Res.ok []
  | l :: ls =>
    match splitWs l with
    | [x, y, z] =>
      match parseFloat x, parseFloat y, parseFloat z with
      | some a, some b, some c =>
        match parseForcesLines factor ls with
        | Res.ok ts => Res.ok ((a * factor, b * factor, c * factor) :: ts)
        | Res.err => Res.err
        | Res.panic => Res.panic
      | _, _, _ => Res.err
    | _ => Res.err

/-- parts[i].parse::<f64>()? of the dipole arm: indexing past the token
list is a panic, a malformed float an error. -/
def idxParse (parts : List Chars) (i : ℕ) : Res ℚ :=
  match parts.get? i with
  | none => Res.panic
  | some t =>
    match parseFloat t with
    | some v => Res.ok v
    | none => Res.err

/-- The dipole data line: three indexed tokens parsed in order (no length
check in the source: a short line panics), scaled by the unit factor. -/
def parseDipoleLine (factor : ℚ) (l : Chars) : Res (ℚ × ℚ × ℚ) :=
  let parts := splitWs l
  match idxParse parts 0 with
  | Res.ok a =>
    match idxParse parts 1 with
    | Res.ok b =>
      match idxParse parts 2 with
      | Res.ok c => Res.ok (a * factor, b * factor, c * factor)
      | Res.err => Res.err
      | Res.panic => Res.panic
    | Res.err => Res.err
    | Res.panic => Res.panic
  | Res.err => Res.err
  | Res.panic => Res.panic

/-- The energy section arm: assert_eq!(1, lines.len()) panics unless the
section has exactly one data line; then the trimmed line must parse as a
float, scaled by the unit factor. -/
def parseEnergySection (factor : ℚ) : List Chars → Res ℚ
  | [l] =>
    match parseFloat (trimChars l) with
    | some v => Res.ok (v * factor)
    | none => Res.err
  | _ => Res.panic

/-- The dipole section arm: assert_eq!(1, lines.len()) panics unless the
section has exactly one data line. -/
def parseDipoleSection (factor : ℚ) : List Chars → Res (ℚ × ℚ × ℚ)
  | [l] => parseDipoleLine factor (trimChars l)
  | _ => Res.panic

/-- Modelled from the spec: the structure section is parsed by the external
gchemol crate (Molecule::from_str with format "text/pxyz"), which is not
part of this repository; the spec describes the section as "one line per
atom: symbol x y z".  One atom line: symbol token then three floats. -/
def atomFromLine (l : Chars) : Res (Chars × (ℚ × ℚ × ℚ)) :=
  match splitWs l with
  | sym :: x :: y :: z :: _ =>
    match parseFloat x, parseFloat y, parseFloat z with
    | some a, some b, some c => Res.ok (sym, (a, b, c))
    | _, _, _ => Res.err
  | _ => Res.err

/-- Modelled from the spec: pxyz molecule text, one atom per line. -/
def moleculeFromPxyz : List Chars → Res (List (Chars × (ℚ × ℚ × ℚ)))
  | [] => Res.ok []
  | l :: ls =>
    match atomFromLine l with
    | Res.ok a =>
      match moleculeFromPxyz ls with
      | Res.ok m => Res.ok (a :: m)
      | Res.err => Res.err
      | Res.panic => Res.panic
    | Res.err => Res.err
    | Res.panic => Res.panic

/-- One iteration of the record loop of parse_model_results_single: parse
the header line, dispatch on the section name; note that the structure arm
ignores the unit factor, and an unrecognized section is ignored. -/
def applyRecord (r : Computed) (k : Chars) (ls : List Chars) : Res Computed :=
  match headerFromStr k with
  | Res.ok h =>
    if h.name = "energy".data then
      match parseEnergySection h.unit_factor ls with
      | Res.ok v => Res.ok { r with energy := some v }
      | Res.err => Res.err
      | Res.panic => Res.panic
    else if h.name = "forces".data then
      match parseForcesLines h.unit_factor ls with
      | Res.ok fs => Res.ok { r with forces := some fs }
      | Res.err => Res.err
      | Res.panic => Res.panic
    else if h.name = "structure".data then
      match moleculeFromPxyz ls with
      | Res.ok m => Res.ok { r with molecule := some m }
      | Res.err => Res.err
      | Res.panic => Res.panic
    else if h.name = "dipole".data then
      match parseDipoleSection h.unit_factor ls with
      | Res.ok d => Res.ok { r with dipole := some d }
      | Res.err => Res.err
      | Res.panic => Res.panic
    else Res.ok r
  | Res.err => Res.err
  | Res.panic => Res.panic

/-- The record loop of parse_model_results_single. -/
def processRecords : List (Chars × List Chars) → Computed → Res Computed
  | [], r => Res.ok r
  | (k, ls) :: rest, r =>
    match applyRecord r k ls with
    | Res.ok r2 => processRecords rest r2
    | Res.err => Res.err
    | Res.panic => Res.panic

/-- parse_model_results_single: one document (the lines between two version
markers) to one Computed record. -/
def parse_model_results_single (part : List Chars) : Res Computed :=
  processRecords (collectRecords part none []) {}

/-- The version marker test of the document splitter
(line.starts_with("@model_properties_format_version"), untrimmed). -/
def isMarkerLine (l : Chars) : Bool := begins "@model_properties_format_version".data l

/-- The comment/blank filter of parse_model_results (tested on the trimmed
line, keeping the original line). -/
def keepLine (l : Chars) : Bool := !(begins "#".data (trimChars l)) && !(trimChars l).isEmpty

/-- The filtered line list of parse_model_results. -/
def filteredLines (stream : List Chars) : List Chars := stream.filter keepLine

/-- stream.trim().is_empty() at line granularity: every line is blank. -/
def allBlank (stream : List Chars) : Bool := stream.all (fun l => (trimChars l).isEmpty)

/-- The document loop of parse_model_results: skip empty parts, parse each
remaining part, propagating the first failure (?). -/
def parseParts : List (List Chars) → Res (List Computed)
  | [] => Res.ok []
  | p :: ps =>
    if p.isEmpty then parseParts ps
    else
      match parse_model_results_single p with
      | Res.ok r =>
        match parseParts ps with
        | Res.ok rs => Res.ok (r :: rs)
        | Res.err => Res.err
        | Res.panic => Res.panic
      | Res.err => Res.err
      | Res.panic => Res.panic

/-- parse_model_results: empty/whitespace-only input is an error (bail!);
then comment and blank lines are dropped, the first remaining line is
skipped by the slice lines[1..] — which panics when the filtered list is
empty — and the rest is split into documents at version-marker lines. -/
def parse_model_results (stream : List Chars) : Res (List Computed) :=
  if allBlank stream then Res.err
  else
    match filteredLines stream with
    | [] => Res.panic
    | _ :: rest => parseParts (splitP isMarkerLine rest)

/-- Computed::parse_all. -/
def parse_all (stream : List Chars) : Res (List Computed) := parse_model_results stream

/-- impl FromStr for Computed: all documents are parsed, an empty result
list is an error (bail!), otherwise the last record wins. -/
def parse_one (stream : List Chars) : Res Computed :=
  match parse_model_results stream with
  | Res.ok [] => Res.err
  | Res.ok (r :: rs) => Res.ok (List.getLastD rs r)
  | Res.err => Res.err
  | Res.panic => Res.panic

/-- The version marker line emitted by the serializer. -/
def versionLine : Chars := "@model_properties_format_version 0.1".data

/-- One line of three scientific-notation numbers (forces row / dipole). -/
def tripleLine (t : ℚ × ℚ × ℚ) : Chars :=
  sci12 t.1 ++ (' ' :: sci12 t.2.1) ++ (' ' :: sci12 t.2.2)

/-- Modelled from the spec: molecule serialization delegates to the
external gchemol crate (mol.format_as("text/pxyz")); "one line per atom:
symbol x y z". -/
def atomLine (a : Chars × (ℚ × ℚ × ℚ)) : Chars := a.1 ++ (' ' :: tripleLine a.2)

/-- impl fmt::Display for Computed: version marker then one section per
populated field, in the fixed order structure, energy, forces, dipole;
force constants are never serialized. -/
def serializeComputed (r : Computed) : List Chars :=
  [versionLine] ++
    (match r.molecule with
     | some m => "@structure".data :: m.map atomLine
     | none => []) ++
    (match r.energy with
     | some e => ["@energy".data, sci12 e]
     | none => []) ++
    (match r.forces with
     | some fs => "@forces".data :: fs.map tripleLine
     | none => []) ++
    (match r.dipole with
     | some d => ["@dipole".data, tripleLine d]
     | none => [])

/-! ## VASP interactive stdout scanner (src/vasp.rs, mod stdout) -/

/-- First index satisfying a predicate. -/
def firstIdx {α : Type} (p : α → Bool) : List α → Option ℕ
  | [] => none
  | a :: as => if p a then some 0 else (firstIdx p as).map (· + 1)

/-- nom space1 followed by space0: at least one whitespace character, all
of them consumed. -/
def space1 : Chars → Option Chars
  | [] => none
  | c :: cs => if wsp c then some ((c :: cs).dropWhile wsp) else none

/-- Longest prefix on which f succeeds, mapped. -/
def takeWhileSome {α β : Type} (f : α → Option β) : List α → List β
  | [] => []
  | a :: as =>
    match f a with
    | some b => b :: takeWhileSome f as
    | none => []

/-- read_xyz: a force row is whitespace, then three whitespace-separated
floats; the rest of the line is ignored (read_line). -/
def parseXyzLine (l : Chars) : Option (ℚ × ℚ × ℚ) :=
  match space1 l with
  | none => none
  | some r0 =>
    match leadFloat r0 with
    | none => none
    | some (x, r1) =>
      match space1 r1 with
      | none => none
      | some r1b =>
        match leadFloat r1b with
        | none => none
        | some (y, r2) =>
          match space1 r2 with
          | none => none
          | some r2b =>
            match leadFloat r2b with
            | none => none
            | some (z, _) => some (x, y, z)

/-- read_energy: space0, digit1, space1, "F=", space0, double, space0,
"E0=", space0, double; the rest of the line is ignored. -/
def parseEnergyLine (l : Chars) : Option ℚ :=
  let l1 := l.dropWhile wsp
  let ds := l1.takeWhile isDigitCh
  if ds = [] then none
  else
    match space1 (l1.dropWhile isDigitCh) with
    | none => none
    | some l3 =>
      if begins "F=".data l3 then
        match leadFloat ((l3.drop 2).dropWhile wsp) with
        | none => none
        | some (_, l5) =>
          let l6 := l5.dropWhile wsp
          if begins "E0=".data l6 then
            match leadFloat ((l6.drop 3).dropWhile wsp) with
            | none => none
            | some (e, _) => some e
          else none
      else none

/-- read_energy_and_forces: skip to the first occurrence of "FORCES:\n"
(at line granularity: the first line ending in "FORCES:", every
accumulated line being newline-terminated), read at least one force row,
then the energy line immediately after the rows. -/
def read_energy_and_forces (ls : List Chars) : Option (ℚ × List (ℚ × ℚ × ℚ)) :=
  match firstIdx (fun l => endsIn "FORCES:".data l) ls with
  | none => none
  | some j =>
    let rest := ls.drop (j + 1)
    let fs := takeWhileSome parseXyzLine rest
    if fs = [] then none
    else
      match rest.drop fs.length with
      | [] => none
      | el :: _ =>
        match parseEnergyLine el with
        | some e => some (e, fs)
        | none => none

/-- stdout::parse_energy_and_forces.  The position of the first line
starting with "FORCES:" is taken with .expect (panic when absent); the
debug!-logged lines[pos - 1] indexes out of range when that line is first
(evaluated only when debug logging is enabled, the dbgLog flag); the
combinator parse result is taken with .expect (panic on failure). -/
def parse_energy_and_forces (dbgLog : Bool) (ls : List Chars) : Res (ℚ × List (ℚ × ℚ × ℚ)) :=
  match firstIdx (fun l => begins "FORCES:".data l) ls with
  | none => Res.panic
  | some pos =>
    if dbgLog ∧ pos = 0 then Res.panic
    else
      match read_energy_and_forces ls with
      | none => Res.panic
      | some v => Res.ok v

/-! ## Interactive task driver (src/task.rs) -/

/-- The result record of the historical revision in src/lib.rs
(ModelProperties), whose set_energy asserts the sign of the energy. -/
structure ModelProperties where
  energy : Option ℚ := none
  forces : Option (List (ℚ × ℚ × ℚ)) := none
deriving DecidableEq, Repr

/-- f64::is_sign_positive on the rational model (the negative-zero and NaN
payload cases of f64 are not representable). -/
def isSignPositiveQ (q : ℚ) : Bool := decide (0 ≤ q)

/-- ModelProperties::set_energy (src/lib.rs): assert!(e.is_sign_positive())
panics on a sign-negative energy. -/
def ModelProperties.setEnergy (mp : ModelProperties) (e : ℚ) : Res ModelProperties :=
  if isSignPositiveQ e then Res.ok { mp with energy := some e } else Res.panic

/-- ModelProperties::set_forces. -/
def ModelProperties.setForces (mp : ModelProperties) (f : List (ℚ × ℚ × ℚ)) : ModelProperties :=
  { mp with forces := some f }

/-- The sentinel test of Task::compute_mol:
line.starts_with("POSITIONS: reading from stdin"). -/
def isSentinel (l : Chars) : Bool := begins "POSITIONS: reading from stdin".data l

/-- Loop of Task::compute_mol: accumulate stdout lines until the sentinel,
then scan the accumulated block and build the record through set_energy
(assert) and set_forces; end of stream before the sentinel is an error
(bail!). -/
def compute_mol_go (dbgLog : Bool) : List Chars → List Chars → Res ModelProperties
  | _, [] => Res.err
  | acc, l :: rest =>
    if isSentinel l then
      match parse_energy_and_forces dbgLog acc with
      | Res.ok ef =>
        match ModelProperties.setEnergy {} ef.1 with
        | Res.ok mp1 => Res.ok (mp1.setForces ef.2)
        | Res.err => Res.err
        | Res.panic => Res.panic
      | Res.err => Res.err
      | Res.panic => Res.panic
    else compute_mol_go dbgLog (acc ++ [l]) rest

/-- Task::compute_mol on the stdout line stream. -/
def compute_mol (dbgLog : Bool) (stdout : List Chars) : Res ModelProperties :=
  compute_mol_go dbgLog [] stdout

/-- Observable I/O actions of Task::interact before reading output. -/
inductive Ev : Type where
  | resume : Ev
  | writeLine : Chars → Ev
  | flush : Ev
deriving DecidableEq, Repr

/-- One stdin position line of Task::input_positions:
format!("{:19.16} {:19.16} {:19.16}\n", x, y, z). -/
def posLine (t : ℚ × ℚ × ℚ) : Chars :=
  fmt16 t.1 ++ (' ' :: fmt16 t.2.1) ++ (' ' :: fmt16 t.2.2) ++ ['\n']

/-- Task::input_positions: mol.get_scaled_positions().expect("lattice")
panics without a lattice; otherwise one line per atom is written, then a
flush. -/
def input_positions (scaled : Option (List (ℚ × ℚ × ℚ))) : Res (List Ev) :=
  match scaled with
  | none => Res.panic
  | some ps => Res.ok (ps.map (fun t => Ev.writeLine (posLine t)) ++ [Ev.flush])

/-- The stdin-side effect sequence of Task::interact (src/task.rs): on the
first call (n = 0) nothing is fed; on every later call the control
script's resume action runs first when configured (its failure propagates
with ?), then the positions are written and flushed. -/
def interactInputEvents (hasIntFile : Bool) (resumeOk : Bool)
    (scaled : Option (List (ℚ × ℚ × ℚ))) (n : ℕ) : Res (List Ev) :=
  if n ≠ 0 then
    if hasIntFile then
      if resumeOk then
        match input_positions scaled with
        | Res.ok evs => Res.ok (Ev.resume :: evs)
        | Res.err => Res.err
        | Res.panic => Res.panic
      else Res.err
    else
      match input_positions scaled with
      | Res.ok evs => Res.ok evs
      | Res.err => Res.err
      | Res.panic => Res.panic
  else Res.ok []

/-! ## Blackbox orchestrator (src/blackbox.rs) -/

/-- The orchestrator state observable through the claims: the invocation
counter ncalls. -/
structure BlackBoxState where
  ncalls : ℕ
deriving DecidableEq, Repr

/-- BlackBoxModel::number_of_evaluations. -/
def number_of_evaluations (s : BlackBoxState) : ℕ := s.ncalls

/-- BlackBoxModel::compute_normal.  The render/submit pipeline up to the
engine's output text is external (template rendering and the child
process); its outcome is the submitted argument.  On a successful parse
the counter is incremented once; every failure leaves it unchanged. -/
def compute_normal (submitted : Res (List Chars)) (s : BlackBoxState) :
    Res Computed × BlackBoxState :=
  match submitted with
  | Res.ok out =>
    match parse_one out with
    | Res.ok mp => (Res.ok mp, ⟨s.ncalls + 1⟩)
    | Res.err => (Res.err, s)
    | Res.panic => (Res.panic, s)
  | Res.err => (Res.err, s)
  | Res.panic => (Res.panic, s)

/-- BlackBoxModel::compute_normal_bunch: one engine invocation, all
documents parsed, the counter incremented once per bunch. -/
def compute_normal_bunch (submitted : Res (List Chars)) (s : BlackBoxState) :
    Res (List Computed) × BlackBoxState :=
  match submitted with
  | Res.ok out =>
    match parse_all out with
    | Res.ok all => (Res.ok all, ⟨s.ncalls + 1⟩)
    | Res.err => (Res.err, s)
    | Res.panic => (Res.panic, s)
  | Res.err => (Res.err, s)
  | Res.panic => (Res.panic, s)

/-- ChemicalModel::compute for BlackBoxModel: compute_normal, then a
debug-only assertion that the returned structure (when present) has the
input's atom count. -/
def compute (dbg : Bool) (molAtoms : ℕ) (submitted : Res (List Chars))
    (s : BlackBoxState) : Res Computed × BlackBoxState :=
  match compute_normal submitted s with
  | (Res.ok mp, s2) =>
    if dbg && (match mp.molecule with
               | some m => decide (m.length ≠ molAtoms)
               | none => false) then (Res.panic, s2)
    else (Res.ok mp, s2)
  | (Res.err, s2) => (Res.err, s2)
  | (Res.panic, s2) => (Res.panic, s2)

/-- ChemicalModel::compute_bunch for BlackBoxModel: compute_normal_bunch,
then debug_assert_eq!(mols.len(), all.len()) — a debug-build-only check
(the dbg flag), absent in release builds. -/
def compute_bunch (dbg : Bool) (k : ℕ) (submitted : Res (List Chars))
    (s : BlackBoxState) : Res (List Computed) × BlackBoxState :=
  match compute_normal_bunch submitted s with
  | (Res.ok all, s2) =>
    if dbg ∧ all.length ≠ k then (Res.panic, s2) else (Res.ok all, s2)
  | (Res.err, s2) => (Res.err, s2)
  | (Res.panic, s2) => (Res.panic, s2)

/-! ## Derived notions used by the theorems -/

/-- A well-formed multi-document stream shape: each document is one
version-marker line followed by its body lines. -/
def mkStream (pcs : List (Chars × List Chars)) : List Chars :=
  (pcs.map (fun pc => pc.1 :: pc.2)).flatten

/-- Scaling of a force/dipole triple list by a unit factor. -/
def scaleT (c : ℚ) (ts : List (ℚ × ℚ × ℚ)) : List (ℚ × ℚ × ℚ) :=
  ts.map (fun t => (t.1 * c, t.2.1 * c, t.2.2 * c))

/-- The rationals the serializer's scientific format represents exactly: a
thirteen-significant-digit decimal mantissa and a decimal exponent ("within
floating-point formatting precision"). -/
def Rep12 (q : ℚ) : Prop :=
  q = 0 ∨ ∃ m : ℤ, ∃ e : ℤ,
    10 ^ 12 ≤ m.natAbs ∧ m.natAbs < 10 ^ 13 ∧ q = (m : ℚ) * (10 : ℚ) ^ (e - 12)

/-- A valid atom symbol for the modelled pxyz codec: a nonempty token free
of whitespace that cannot be mistaken for a section header or comment. -/
def validSym (s : Chars) : Prop :=
  s ≠ [] ∧ (∀ ch ∈ s, wsp ch = false) ∧
    begins "@".data s = false ∧ begins "#".data s = false

/-- The serialized structure block: header and one line per atom. -/
def structBlock : Option (List (Chars × (ℚ × ℚ × ℚ))) → List (Chars × List Chars)
  | some m => [("@structure".data, m.map atomLine)]
  | none => []

/-- The serialized energy block: header and a single number line. -/
def energyBlock : Option ℚ → List (Chars × List Chars)
  | some e => [("@energy".data, [sci12 e])]
  | none => []

/-- The serialized forces block: header and one triple line per atom. -/
def forcesBlock : Option (List (ℚ × ℚ × ℚ)) → List (Chars × List Chars)
  | some fs => [("@forces".data, fs.map tripleLine)]
  | none => []

/-- The serialized dipole block: header and a single triple line. -/
def dipoleBlock : Option (ℚ × ℚ × ℚ) → List (Chars × List Chars)
  | some d => [("@dipole".data, [tripleLine d])]
  | none => []

/-- The serialized body of a record, one (header, data lines) block per
populated field, in the serializer's fixed order. -/
def fieldBlocks (r : Computed) : List (Chars × List Chars) :=
  structBlock r.molecule ++ energyBlock r.energy ++
    forcesBlock r.forces ++ dipoleBlock r.dipole

/-! ## Helper lemmas -/

theorem firstIdx_eq_none {α : Type} (p : α → Bool) (l : List α)
    (h : ∀ a ∈ l, p a = false) : firstIdx p l = none := by
  induction l with
  | nil => rfl
  | cons a as ih =>
    simp only [firstIdx, h a (List.mem_cons_self a as)]
    simp [ih (fun x hx => h x (List.mem_cons_of_mem a hx))]

theorem compute_mol_go_append (d : Bool) (pre : List Chars) (acc : List Chars)
    (tail : List Chars) (h : ∀ l ∈ pre, isSentinel l = false) :
    compute_mol_go d acc (pre ++ tail) = compute_mol_go d (acc ++ pre) tail := by
  induction pre generalizing acc with
  | nil => simp
  | cons l ls ih =>
    have hl := h l (List.mem_cons_self l ls)
    have step := ih (acc ++ [l]) (fun x hx => h x (List.mem_cons_of_mem l hx))
    simp only [List.cons_append, compute_mol_go, hl, Bool.false_eq_true, if_false,
      List.append_eq]
    rw [step]
    simp

/-! ## Claim C1 -/

/-- Claim C1, counterexample: on an interactive output block with no line
starting with FORCES:, the streaming-output scanner does not return an
error value (the claimed ProtocolError); it panics (the .expect on the
marker lookup). -/
theorem c1_counterexample :
    parse_energy_and_forces false ["hello".data] ≠ Res.err ∧
    parse_energy_and_forces false ["hello".data] = Res.panic := by
  decide

/-- Claim C1, amended: for every interactive-engine output block without a
line starting with FORCES:, the streaming-output scanner panics (via
.expect), whatever the logging configuration; consequently the interactive
compute step, reaching the sentinel line with such an accumulated block,
also panics rather than returning an error or a default-zero result. -/
theorem c1_amended_thm (d : Bool) (ls pre : List Chars) (sl : Chars)
    (rest : List Chars)
    (hls : ∀ l ∈ ls, begins "FORCES:".data l = false)
    (hpre : ∀ l ∈ pre, begins "FORCES:".data l = false)
    (hsen : ∀ l ∈ pre, isSentinel l = false)
    (hsl : isSentinel sl = true) :
    parse_energy_and_forces d ls = Res.panic ∧
    compute_mol d (pre ++ sl :: rest) = Res.panic := by
  have key : ∀ (xs : List Chars), (∀ l ∈ xs, begins "FORCES:".data l = false) →
      parse_energy_and_forces d xs = Res.panic := by
    intro xs hxs
    unfold parse_energy_and_forces
    rw [firstIdx_eq_none _ _ hxs]
  refine ⟨key ls hls, ?_⟩
  unfold compute_mol
  rw [compute_mol_go_append d pre [] (sl :: rest) hsen]
  simp only [List.nil_append, compute_mol_go, hsl, if_pos rfl, key pre hpre]
  simp

/-- Claim C1, witness: the amended theorem at a concrete block. -/
theorem c1_witness :
    parse_energy_and_forces false ["abc".data] = Res.panic ∧
    compute_mol false ["abc".data, "POSITIONS: reading from stdin".data] = Res.panic := by
  have h := c1_amended_thm false ["abc".data] ["abc".data]
    "POSITIONS: reading from stdin".data [] (by decide) (by decide) (by decide) (by decide)
  exact ⟨h.1, h.2⟩

/-! ## Claim C2 -/

/-- Claim C2: empty and whitespace-only streams fail with a parse error as
claimed, but a stream consisting only of comment lines panics — the
lines[1..] slice of the empty filtered line list — instead of returning
ParseError; the claim's comment-only case is a bug in the code. -/
theorem c2_bug_thm :
    parse_model_results [] = Res.err ∧
    parse_model_results ["   ".data] = Res.err ∧
    parse_model_results ["\t".data, "".data] = Res.err ∧
    parse_model_results ["# hello".data] = Res.panic ∧
    parse_model_results ["# a".data, "  ".data, "# b".data] = Res.panic ∧
    parse_one ["# hello".data] = Res.panic := by
  decide

/-! ## Claim C7 -/

/-- Claim C7, counterexample: in a release build (no debug assertions),
compute_bunch over one input structure returns two results when the engine
emits two result documents — the result count is not the input count. -/
theorem c7_counterexample :
    compute_bunch false 1
      (Res.ok [versionLine, "@foo".data, "x".data, versionLine, "@foo".data, "x".data])
      ⟨0⟩ = (Res.ok [{}, {}], ⟨1⟩) ∧
    ([({} : Computed), {}]).length ≠ 1 := by
  decide

/-- Claim C7, amended: compute_bunch returns the documents parsed from the
engine output in stream order; only when the engine emits exactly as many
documents as there are input structures does it return exactly k results
(then in every build configuration); the count equality itself is checked
only by a debug assertion. -/
theorem c7_amended_thm (dbg : Bool) (k : ℕ) (out : List Chars)
    (rs : List Computed) (s : BlackBoxState)
    (hp : parse_all out = Res.ok rs) (hk : rs.length = k) :
    compute_bunch dbg k (Res.ok out) s = (Res.ok rs, ⟨s.ncalls + 1⟩) := by
  simp [compute_bunch, compute_normal_bunch, hp, hk]

/-- Claim C7, witness: the amended theorem at a concrete two-document
engine output for two inputs. -/
theorem c7_witness :
    compute_bunch true 2
      (Res.ok [versionLine, "@foo".data, "x".data, versionLine, "@foo".data, "x".data])
      ⟨3⟩ = (Res.ok [{}, {}], ⟨4⟩) := by
  exact c7_amended_thm true 2 _ [{}, {}] ⟨3⟩ (by decide) (by decide)

/-! ## Claim C8 -/

theorem compute_normal_state (sub : Res (List Chars)) (s : BlackBoxState) :
    ((∃ mp, (compute_normal sub s).1 = Res.ok mp) ∧ (compute_normal sub s).2 = ⟨s.ncalls + 1⟩) ∨
    ((¬ ∃ mp, (compute_normal sub s).1 = Res.ok mp) ∧ (compute_normal sub s).2 = s) := by
  cases sub with
  | ok out => cases hp : parse_one out <;> simp [compute_normal, hp]
  | err => simp [compute_normal]
  | panic => simp [compute_normal]

theorem compute_normal_bunch_state (sub : Res (List Chars)) (s : BlackBoxState) :
    ((∃ all, (compute_normal_bunch sub s).1 = Res.ok all) ∧
      (compute_normal_bunch sub s).2 = ⟨s.ncalls + 1⟩) ∨
    ((¬ ∃ all, (compute_normal_bunch sub s).1 = Res.ok all) ∧
      (compute_normal_bunch sub s).2 = s) := by
  cases sub with
  | ok out => cases hp : parse_all out <;> simp [compute_normal_bunch, hp]
  | err => simp [compute_normal_bunch]
  | panic => simp [compute_normal_bunch]

theorem compute_state_eq (dbg : Bool) (molAtoms : ℕ) (sub : Res (List Chars))
    (s : BlackBoxState) :
    (compute dbg molAtoms sub s).2 = (compute_normal sub s).2 ∧
    (∀ mp, (compute dbg molAtoms sub s).1 = Res.ok mp →
      (compute_normal sub s).1 = Res.ok mp) := by
  unfold compute
  rcases h : compute_normal sub s with ⟨r1, s2⟩
  cases r1 <;> simp [h] <;> split <;> simp

theorem compute_bunch_state_eq (dbg : Bool) (k : ℕ) (sub : Res (List Chars))
    (s : BlackBoxState) :
    (compute_bunch dbg k sub s).2 = (compute_normal_bunch sub s).2 ∧
    (∀ all, (compute_bunch dbg k sub s).1 = Res.ok all →
      (compute_normal_bunch sub s).1 = Res.ok all) := by
  unfold compute_bunch
  rcases h : compute_normal_bunch sub s with ⟨r1, s2⟩
  cases r1 <;> simp [h] <;> split <;> simp

/-- Claim C8: the invocation counter exposed by number_of_evaluations never
decreases under any compute operation, is incremented exactly once per
successful compute call (one-shot or bunch, never per bunch item), and is
left unchanged by a failed call. -/
theorem c8_counter_thm (sub : Res (List Chars)) (s : BlackBoxState)
    (dbg : Bool) (molAtoms k : ℕ) :
    number_of_evaluations s = s.ncalls ∧
    s.ncalls ≤ (compute_normal sub s).2.ncalls ∧
    s.ncalls ≤ (compute_normal_bunch sub s).2.ncalls ∧
    s.ncalls ≤ (compute dbg molAtoms sub s).2.ncalls ∧
    s.ncalls ≤ (compute_bunch dbg k sub s).2.ncalls ∧
    (∀ mp, (compute_normal sub s).1 = Res.ok mp →
      (compute_normal sub s).2.ncalls = s.ncalls + 1) ∧
    ((compute_normal sub s).1 = Res.err → (compute_normal sub s).2 = s) ∧
    ((compute_normal sub s).1 = Res.panic → (compute_normal sub s).2 = s) ∧
    (∀ all, (compute_normal_bunch sub s).1 = Res.ok all →
      (compute_normal_bunch sub s).2.ncalls = s.ncalls + 1) ∧
    ((compute_normal_bunch sub s).1 = Res.err → (compute_normal_bunch sub s).2 = s) ∧
    (∀ mp, (compute dbg molAtoms sub s).1 = Res.ok mp →
      (compute dbg molAtoms sub s).2.ncalls = s.ncalls + 1) ∧
    (∀ all, (compute_bunch dbg k sub s).1 = Res.ok all →
      (compute_bunch dbg k sub s).2.ncalls = s.ncalls + 1) := by
  have hn := compute_normal_state sub s
  have hb := compute_normal_bunch_state sub s
  have hc := compute_state_eq dbg molAtoms sub s
  have hcb := compute_bunch_state_eq dbg k sub s
  have n1 : s.ncalls ≤ (compute_normal sub s).2.ncalls := by
    rcases hn with ⟨_, h2⟩ | ⟨_, h2⟩ <;> simp [h2]
  have b1 : s.ncalls ≤ (compute_normal_bunch sub s).2.ncalls := by
    rcases hb with ⟨_, h2⟩ | ⟨_, h2⟩ <;> simp [h2]
  refine ⟨rfl, n1, b1, ?_, ?_, ?_, ?_, ?_, ?_, ?_, ?_, ?_⟩
  · rw [hc.1]; exact n1
  · rw [hcb.1]; exact b1
  · intro mp hmp
    rcases hn with ⟨_, h2⟩ | ⟨hno, _⟩
    · simp [h2]
    · exact absurd ⟨mp, hmp⟩ hno
  · intro herr
    rcases hn with ⟨⟨mp, hok⟩, _⟩ | ⟨_, h2⟩
    · rw [hok] at herr; cases herr
    · exact h2
  · intro hpan
    rcases hn with ⟨⟨mp, hok⟩, _⟩ | ⟨_, h2⟩
    · rw [hok] at hpan; cases hpan
    · exact h2
  · intro all hall
    rcases hb with ⟨_, h2⟩ | ⟨hno, _⟩
    · simp [h2]
    · exact absurd ⟨all, hall⟩ hno
  · intro herr
    rcases hb with ⟨⟨all, hok⟩, _⟩ | ⟨_, h2⟩
    · rw [hok] at herr; cases herr
    · exact h2
  · intro mp hmp
    rw [hc.1]
    rcases hn with ⟨_, h2⟩ | ⟨hno, _⟩
    · simp [h2]
    · exact absurd ⟨mp, hc.2 mp hmp⟩ hno
  · intro all hall
    rw [hcb.1]
    rcases hb with ⟨_, h2⟩ | ⟨hno, _⟩
    · simp [h2]
    · exact absurd ⟨all, hcb.2 all hall⟩ hno

/-- Claim C8, witness: the counter theorem applied at a concrete successful
one-shot computation, showing the counter going from five to six. -/
theorem c8_witness :
    (compute_normal (Res.ok [versionLine, "@foo".data, "x".data]) ⟨5⟩).2.ncalls = 6 := by
  have h := c8_counter_thm (Res.ok [versionLine, "@foo".data, "x".data]) ⟨5⟩ false 0 0
  exact h.2.2.2.2.2.1 {} (by decide)

/-! ## List and splitting infrastructure -/

theorem marker_begins_at (l : Chars) (h : isMarkerLine l = true) :
    begins "@".data l = true := by
  cases l with
  | nil => exact absurd h (by decide)
  | cons c cs =>
    rw [isMarkerLine, show "@model_properties_format_version".data =
      '@' :: "model_properties_format_version".data from rfl] at h
    rw [show "@".data = ['@'] from rfl]
    simp only [begins, Bool.and_eq_true] at h ⊢
    exact ⟨h.1, trivial⟩

theorem splitP_free {α : Type} (p : α → Bool) (l : List α)
    (h : ∀ a ∈ l, p a = false) : splitP p l = [l] := by
  induction l with
  | nil => rfl
  | cons a as ih =>
    have ha := h a (List.mem_cons_self a as)
    rw [splitP, ha]
    simp only [Bool.false_eq_true, if_false]
    rw [ih (fun x hx => h x (List.mem_cons_of_mem a hx))]

theorem splitP_break {α : Type} (p : α → Bool) (xs ys : List α) (m : α)
    (hxs : ∀ a ∈ xs, p a = false) (hm : p m = true) :
    splitP p (xs ++ m :: ys) = xs :: splitP p ys := by
  induction xs with
  | nil => simp [splitP, hm]
  | cons a as ih =>
    have ha := hxs a (List.mem_cons_self a as)
    simp only [List.cons_append, splitP, ha, Bool.false_eq_true, if_false, List.append_eq]
    rw [ih (fun x hx => hxs x (List.mem_cons_of_mem a hx))]

theorem splitP_mkStream (part0 : List Chars) (pcs : List (Chars × List Chars))
    (h0 : ∀ l ∈ part0, isMarkerLine l = false)
    (hm : ∀ pc ∈ pcs, isMarkerLine pc.1 = true)
    (hnm : ∀ pc ∈ pcs, ∀ l ∈ pc.2, isMarkerLine l = false) :
    splitP isMarkerLine (part0 ++ mkStream pcs) = part0 :: pcs.map (fun pc => pc.2) := by
  induction pcs generalizing part0 with
  | nil =>
    simp only [mkStream, List.map_nil, List.flatten_nil, List.append_nil]
    exact splitP_free _ _ h0
  | cons pc rest ih =>
    have hmk : mkStream (pc :: rest) = pc.1 :: (pc.2 ++ mkStream rest) := by
      simp [mkStream]
    rw [hmk, splitP_break isMarkerLine part0 (pc.2 ++ mkStream rest) pc.1 h0
      (hm pc (List.mem_cons_self pc rest))]
    rw [ih pc.2 (hnm pc (List.mem_cons_self pc rest))
      (fun x hx => hm x (List.mem_cons_of_mem pc hx))
      (fun x hx => hnm x (List.mem_cons_of_mem pc hx))]
    rfl

theorem parseParts_ok (parts : List (List Chars)) (rs : List Computed)
    (hok : List.Forall₂ (fun part r => parse_model_results_single part = Res.ok r) parts rs)
    (hne : ∀ part ∈ parts, part ≠ []) :
    parseParts parts = Res.ok rs := by
  induction hok with
  | nil => rfl
  | @cons a b as bs hab hrest ih =>
    have ha : a.isEmpty = false := by
      have := hne a (List.mem_cons_self a as)
      cases a with
      | nil => exact absurd rfl this
      | cons x xs => rfl
    simp only [parseParts, ha, Bool.false_eq_true, if_false, hab]
    rw [ih (fun x hx => hne x (List.mem_cons_of_mem a hx))]

theorem countP_mkStream (pcs : List (Chars × List Chars))
    (hm : ∀ pc ∈ pcs, isMarkerLine pc.1 = true)
    (hnm : ∀ pc ∈ pcs, ∀ l ∈ pc.2, isMarkerLine l = false) :
    (mkStream pcs).countP isMarkerLine = pcs.length := by
  induction pcs with
  | nil => rfl
  | cons pc rest ih =>
    have hmk : mkStream (pc :: rest) = pc.1 :: (pc.2 ++ mkStream rest) := by
      simp [mkStream]
    rw [hmk, List.countP_cons_of_pos _ _ (hm pc (List.mem_cons_self pc rest)),
      List.countP_append]
    have hz : pc.2.countP isMarkerLine = 0 := by
      apply List.countP_eq_zero.mpr
      intro l hl
      simp [hnm pc (List.mem_cons_self pc rest) l hl]
    rw [hz, ih (fun x hx => hm x (List.mem_cons_of_mem pc hx))
      (fun x hx => hnm x (List.mem_cons_of_mem pc hx))]
    simp [List.length_cons, Nat.add_comm]

theorem allBlank_filtered (s : List Chars) (h : allBlank s = true) :
    filteredLines s = [] := by
  apply List.filter_eq_nil_iff.mpr
  intro l hl
  have ht := (List.all_eq_true.mp h) l hl
  simp [keepLine, ht]

/-! ## Record collection lemmas -/

theorem collectRecords_data (ls : List Chars) (k : Chars)
    (acc : List (Chars × List Chars))
    (h : ∀ l ∈ ls, begins "@".data (trimChars l) = false) :
    collectRecords ls (some k) acc =
      List.foldl (fun a l => pushRecord a k (trimChars l)) acc ls := by
  induction ls generalizing acc with
  | nil => rfl
  | cons l ls ih =>
    have hl := h l (List.mem_cons_self l ls)
    simp only [collectRecords, hl, Bool.false_eq_true, if_false, List.foldl]
    exact ih _ (fun x hx => h x (List.mem_cons_of_mem l hx))

theorem foldl_pushRecord_same (ls : List Chars) (k : Chars) (vs : List Chars) :
    List.foldl (fun a l => pushRecord a k (trimChars l)) [(k, vs)] ls =
      [(k, vs ++ ls.map trimChars)] := by
  induction ls generalizing vs with
  | nil => simp
  | cons l ls ih =>
    simp only [List.foldl, pushRecord, if_pos, List.map]
    rw [ih (vs ++ [trimChars l])]
    simp

theorem parse_single_hdr (h : Chars) (hh : trimChars h = h)
    (hha : begins "@".data h = true) :
    parse_model_results_single [h] = Res.ok {} := by
  unfold parse_model_results_single
  simp only [collectRecords, hh, hha, if_pos]
  rfl

theorem parse_single_block (h : Chars) (ls : List Chars) (hne : ls ≠ [])
    (hh : trimChars h = h) (hha : begins "@".data h = true)
    (hls : ∀ l ∈ ls, begins "@".data (trimChars l) = false) :
    parse_model_results_single (h :: ls) =
      processRecords [(h, ls.map trimChars)] {} := by
  unfold parse_model_results_single
  simp only [collectRecords, hh, hha, if_pos]
  rw [collectRecords_data ls h [] hls]
  cases ls with
  | nil => exact absurd rfl hne
  | cons l0 ls' =>
    simp only [List.foldl, List.map]
    rw [show pushRecord [] h (trimChars l0) = [(h, [trimChars l0])] from rfl]
    rw [foldl_pushRecord_same]
    simp

theorem parse_stream_one_doc (body : List Chars)
    (hke : ∀ l ∈ body, keepLine l = true)
    (hnm : ∀ l ∈ body, isMarkerLine l = false) (hne : body ≠ []) :
    parse_model_results (versionLine :: body) =
      match parse_model_results_single body with
      | Res.ok r => Res.ok [r]
      | Res.err => Res.err
      | Res.panic => Res.panic := by
  have hab : allBlank (versionLine :: body) = false := by
    have h1 : (trimChars versionLine).isEmpty = false := by decide
    simp [allBlank, h1]
  have hfl : filteredLines (versionLine :: body) = versionLine :: body := by
    apply List.filter_eq_self.mpr
    intro l hl
    rcases List.mem_cons.mp hl with h1 | h2
    · rw [h1]; decide
    · exact hke l h2
  rw [parse_model_results, hab]
  simp only [Bool.false_eq_true, if_false, hfl]
  rw [splitP_free isMarkerLine body hnm]
  have hbe : body.isEmpty = false := by
    cases body with
    | nil => exact absurd rfl hne
    | cons x xs => rfl
  cases hres : parse_model_results_single body <;>
    simp only [parseParts, hbe, Bool.false_eq_true, if_false, hres]

/-! ## Claim C3 -/

/-- Claim C3, counterexample: a document whose energy section holds two
data lines makes parsing panic (the assert_eq! on the line count); it does
not return the claimed ParseError. -/
theorem c3_counterexample :
    parse_model_results [versionLine, "@energy".data, "1.0".data, "2.0".data]
      = Res.panic ∧
    parse_model_results [versionLine, "@energy".data, "1.0".data, "2.0".data]
      ≠ Res.err := by
  decide

theorem parseEnergySection_two (f : ℚ) (ds : List Chars) (h : 2 ≤ ds.length) :
    parseEnergySection f ds = Res.panic := by
  match ds with
  | [] => simp at h
  | [a] => simp at h
  | a :: b :: rest => rfl

theorem parseDipoleSection_two (f : ℚ) (ds : List Chars) (h : 2 ≤ ds.length) :
    parseDipoleSection f ds = Res.panic := by
  match ds with
  | [] => simp at h
  | [a] => simp at h
  | a :: b :: rest => rfl

/-- Claim C3, amended: an energy or dipole section with more than one data
line makes parsing of the document panic via an assertion rather than
return ParseError, and a section with zero data lines is silently dropped
(the document parses to a record with the field absent) rather than
rejected. -/
theorem c3_amended_thm (ls : List Chars) (hlen : 2 ≤ ls.length)
    (hk : ∀ l ∈ ls, keepLine l = true)
    (hm : ∀ l ∈ ls, isMarkerLine l = false)
    (ha : ∀ l ∈ ls, begins "@".data (trimChars l) = false) :
    parse_model_results (versionLine :: "@energy".data :: ls) = Res.panic ∧
    parse_model_results (versionLine :: "@dipole".data :: ls) = Res.panic ∧
    parse_model_results [versionLine, "@energy".data] = Res.ok [{}] ∧
    parse_model_results [versionLine, "@dipole".data] = Res.ok [{}] := by
  have hlsne : ls ≠ [] := by
    cases ls with
    | nil => simp at hlen
    | cons x xs => simp
  have hmap2 : 2 ≤ (ls.map trimChars).length := by
    rw [List.length_map]; exact hlen
  refine ⟨?_, ?_, by decide, by decide⟩
  · rw [parse_stream_one_doc ("@energy".data :: ls)
      (by intro l hl; rcases List.mem_cons.mp hl with h1 | h2
          · rw [h1]; decide
          · exact hk l h2)
      (by intro l hl; rcases List.mem_cons.mp hl with h1 | h2
          · rw [h1]; decide
          · exact hm l h2)
      (by simp)]
    rw [parse_single_block "@energy".data ls hlsne (by decide) (by decide) ha]
    simp +decide [processRecords, applyRecord,
      show headerFromStr "@energy".data = Res.ok ⟨"energy".data, 1⟩ from by decide,
      parseEnergySection_two 1 (ls.map trimChars) hmap2]
  · rw [parse_stream_one_doc ("@dipole".data :: ls)
      (by intro l hl; rcases List.mem_cons.mp hl with h1 | h2
          · rw [h1]; decide
          · exact hk l h2)
      (by intro l hl; rcases List.mem_cons.mp hl with h1 | h2
          · rw [h1]; decide
          · exact hm l h2)
      (by simp)]
    rw [parse_single_block "@dipole".data ls hlsne (by decide) (by decide) ha]
    simp +decide [processRecords, applyRecord,
      show headerFromStr "@dipole".data = Res.ok ⟨"dipole".data, 1⟩ from by decide,
      parseDipoleSection_two 1 (ls.map trimChars) hmap2]

/-- Claim C3, witness: the amended theorem at a concrete two-line energy
and dipole section. -/
theorem c3_witness :
    parse_model_results (versionLine :: "@energy".data :: ["3.0".data, "4.0".data])
      = Res.panic ∧
    parse_model_results (versionLine :: "@dipole".data :: ["3.0".data, "4.0".data])
      = Res.panic := by
  have h := c3_amended_thm ["3.0".data, "4.0".data] (by decide) (by decide)
    (by decide) (by decide)
  exact ⟨h.1, h.2.1⟩

/-! ## Claim C4 -/

/-- Claim C4, counterexample: a comment-only stream is a well-formed stream
with zero version markers, yet parse_one panics (the lines[1..] slice on
the empty filtered line list) instead of failing with ParseError. -/
theorem c4_counterexample :
    parse_one ["# c".data] = Res.panic ∧ parse_one ["# c".data] ≠ Res.err := by
  decide

/-- Claim C4, amended: a well-formed stream of N ≥ 1 version-marker-headed
documents (each nonempty and parsing to a record) yields exactly N records
in stream order through parse_all, and parse_one returns the last one; the
filtered stream holds exactly N marker lines.  When N = 0: an empty or
whitespace-only stream fails with ParseError, but a comment-only stream
panics (the C2 slice bug) rather than returning ParseError. -/
theorem c4_amended_thm (stream : List Chars) (pcs : List (Chars × List Chars))
    (rs : List Computed)
    (hne : pcs ≠ [])
    (hfl : filteredLines stream = mkStream pcs)
    (hm : ∀ pc ∈ pcs, isMarkerLine pc.1 = true)
    (hp2 : ∀ pc ∈ pcs, pc.2 ≠ [])
    (hnm : ∀ pc ∈ pcs, ∀ l ∈ pc.2, isMarkerLine l = false)
    (hok : List.Forall₂ (fun pc r => parse_model_results_single pc.2 = Res.ok r) pcs rs) :
    parse_all stream = Res.ok rs ∧
    parse_one stream = Res.ok (rs.getLastD {}) ∧
    (filteredLines stream).countP isMarkerLine = pcs.length ∧
    (∀ s2 : List Chars, allBlank s2 = true → parse_one s2 = Res.err) := by
  rcases pcs with _ | ⟨pc0, rest⟩
  · exact absurd rfl hne
  have hab : allBlank stream = false := by
    by_contra hcon
    have h1 : allBlank stream = true := by
      cases h2 : allBlank stream
      · exact absurd h2 hcon
      · rfl
    have h2 := allBlank_filtered stream h1
    rw [hfl] at h2
    simp [mkStream] at h2
  have hmk : mkStream (pc0 :: rest) = pc0.1 :: (pc0.2 ++ mkStream rest) := by
    simp [mkStream]
  cases hok with
  | cons hab0 hrest =>
    rename_i r0 rs'
    have hparse : parse_model_results stream = Res.ok (r0 :: rs') := by
      rw [parse_model_results, hab]
      simp only [Bool.false_eq_true, if_false, hfl, hmk]
      rw [splitP_mkStream pc0.2 rest
        (hnm pc0 (List.mem_cons_self pc0 rest))
        (fun x hx => hm x (List.mem_cons_of_mem pc0 hx))
        (fun x hx => hnm x (List.mem_cons_of_mem pc0 hx))]
      apply parseParts_ok
      · exact List.Forall₂.cons hab0 (List.forall₂_map_left_iff.mpr hrest)
      · intro part hpart
        rcases List.mem_cons.mp hpart with h1 | h2
        · rw [h1]; exact hp2 pc0 (List.mem_cons_self pc0 rest)
        · rcases List.mem_map.mp h2 with ⟨pc, hpc, hpc2⟩
          rw [← hpc2]
          exact hp2 pc (List.mem_cons_of_mem pc0 hpc)
    refine ⟨hparse, ?_, ?_, ?_⟩
    · rw [parse_one, hparse, List.getLastD_cons]
    · rw [hfl]
      exact countP_mkStream _ hm hnm
    · intro s2 h2
      rw [parse_one, parse_model_results, h2]
      rfl

/-- Claim C4, witness: the amended theorem on a concrete stream of two
documents with an interleaved comment line. -/
theorem c4_witness :
    parse_all ["# c".data, versionLine, "@foo".data, "x".data,
      versionLine, "@bar".data, "y".data] = Res.ok [{}, {}] ∧
    parse_one ["# c".data, versionLine, "@foo".data, "x".data,
      versionLine, "@bar".data, "y".data] = Res.ok {} := by
  have h := c4_amended_thm
    ["# c".data, versionLine, "@foo".data, "x".data, versionLine, "@bar".data, "y".data]
    [(versionLine, ["@foo".data, "x".data]), (versionLine, ["@bar".data, "y".data])]
    [{}, {}]
    (by decide) (by decide) (by decide) (by decide) (by decide)
    (List.Forall₂.cons (by decide) (List.Forall₂.cons (by decide) List.Forall₂.nil))
  exact ⟨h.1, h.2.1⟩

/-! ## Whitespace token lemmas -/

theorem splitWsAux_nows (t : Chars) : ∀ cur : Chars,
    (∀ c ∈ t, wsp c = false) → (cur ≠ [] ∨ t ≠ []) →
    splitWsAux t cur = [cur.reverse ++ t] := by
  induction t with
  | nil =>
    intro cur _ hne
    rcases hne with h | h
    · simp [splitWsAux, h]
    · exact absurd rfl h
  | cons c cs ih =>
    intro cur h _
    have hc := h c (List.mem_cons_self c cs)
    simp only [splitWsAux, hc, Bool.false_eq_true, if_false]
    rw [ih (c :: cur) (fun x hx => h x (List.mem_cons_of_mem c hx)) (Or.inl (by simp))]
    simp

theorem splitWsAux_tok (t : Chars) : ∀ (rest cur : Chars),
    (∀ c ∈ t, wsp c = false) →
    splitWsAux (t ++ rest) cur = splitWsAux rest (t.reverse ++ cur) := by
  induction t with
  | nil => intro rest cur _; simp
  | cons c cs ih =>
    intro rest cur h
    have hc := h c (List.mem_cons_self c cs)
    simp only [List.cons_append, splitWsAux, hc, Bool.false_eq_true, if_false,
      List.append_eq]
    rw [ih rest (c :: cur) (fun x hx => h x (List.mem_cons_of_mem c hx))]
    simp

theorem splitWs_token_end (t : Chars) (hne : t ≠ [])
    (h : ∀ c ∈ t, wsp c = false) : splitWs t = [t] := by
  unfold splitWs
  rw [splitWsAux_nows t [] h (Or.inr hne)]
  simp

theorem splitWs_token_sp (t rest : Chars) (hne : t ≠ [])
    (h : ∀ c ∈ t, wsp c = false) :
    splitWs (t ++ ' ' :: rest) = t :: splitWs rest := by
  unfold splitWs
  rw [splitWsAux_tok t (' ' :: rest) [] h]
  have hna : t.reverse ++ [] ≠ [] := by simp [hne]
  simp only [splitWsAux, show wsp ' ' = true from rfl, if_pos, hna,
    Bool.true_eq_false]
  simp

/-! ## Trim lemmas -/

theorem trim_app (c : Char) (mid tok : Chars) (h1 : wsp c = false)
    (hne : tok ≠ []) (hcw : ∀ ch ∈ tok, wsp ch = false) :
    trimChars (c :: (mid ++ tok)) = c :: (mid ++ tok) := by
  obtain ⟨d, ds, hds⟩ : ∃ d ds, tok.reverse = d :: ds := by
    cases htok : tok.reverse with
    | nil => exact absurd (List.reverse_eq_nil_iff.mp htok) hne
    | cons d ds => exact ⟨d, ds, rfl⟩
  have hd : wsp d = false := by
    apply hcw
    have : d ∈ tok.reverse := by rw [hds]; exact List.mem_cons_self d ds
    exact List.mem_reverse.mp this
  have hrev : (c :: (mid ++ tok)).reverse = d :: (ds ++ (mid.reverse ++ [c])) := by
    simp [hds]
  unfold trimChars
  rw [List.dropWhile_cons_of_neg (by simp [h1]), hrev,
    List.dropWhile_cons_of_neg (by simp [hd]), ← hrev, List.reverse_reverse]

theorem trim_plain_tok (tok : Chars) (hne : tok ≠ [])
    (hcw : ∀ ch ∈ tok, wsp ch = false) : trimChars tok = tok := by
  obtain ⟨c, t, rfl⟩ := List.exists_cons_of_ne_nil hne
  cases t with
  | nil =>
    have hc := hcw c (List.mem_cons_self c [])
    simp [trimChars, hc]
  | cons d ds =>
    have hc := hcw c (List.mem_cons_self c (d :: ds))
    have := trim_app c [] (d :: ds) hc (by simp)
      (fun x hx => hcw x (List.mem_cons_of_mem c hx))
    simpa using this

/-! ## splitOnceEq and header lemmas -/

theorem splitOnceEq_concat (pre suf : Chars) (h : ∀ c ∈ pre, c ≠ '=') :
    splitOnceEq (pre ++ '=' :: suf) = some (pre, suf) := by
  induction pre with
  | nil => simp [splitOnceEq]
  | cons c cs ih =>
    have hc := h c (List.mem_cons_self c cs)
    simp only [List.cons_append, splitOnceEq, if_neg hc, List.append_eq]
    rw [ih (fun x hx => h x (List.mem_cons_of_mem c hx))]
    rfl

theorem headerFromStr_plain (nm : Chars) (hne : nm ≠ [])
    (h : ∀ c ∈ nm, wsp c = false) :
    headerFromStr ('@' :: nm) = Res.ok ⟨nm, 1⟩ := by
  simp only [headerFromStr]
  rw [splitWs_token_end nm hne h]
  rfl

theorem headerFromStr_factor (nm ctok : Chars) (c : ℚ) (hnm : nm ≠ [])
    (hnw : ∀ ch ∈ nm, wsp ch = false) (hct : ctok ≠ [])
    (hcw : ∀ ch ∈ ctok, wsp ch = false) (hc : parseFloat ctok = some c) :
    headerFromStr ('@' :: (nm ++ ' ' :: ("unit_factor=".data ++ ctok))) =
      Res.ok ⟨nm, c⟩ := by
  simp only [headerFromStr]
  rw [splitWs_token_sp nm _ hnm hnw]
  have huf : "unit_factor=".data ++ ctok = "unit_factor".data ++ '=' :: ctok := rfl
  have hwf0 : ∀ ch ∈ "unit_factor=".data, wsp ch = false := by decide
  have hwf : ∀ ch ∈ "unit_factor=".data ++ ctok, wsp ch = false := by
    intro ch hch
    rcases List.mem_append.mp hch with h1 | h2
    · exact hwf0 ch h1
    · exact hcw ch h2
  rw [splitWs_token_end _ (by simp [hct]) hwf]
  simp only [unitFactorOf, huf]
  rw [splitOnceEq_concat "unit_factor".data ctok (by decide)]
  simp only [if_pos, hc]

/-! ## Unit factor scaling lemmas -/

theorem parseForcesLines_factor (f : ℚ) (ls : List Chars) :
    ∀ ts : List (ℚ × ℚ × ℚ), parseForcesLines 1 ls = Res.ok ts →
    parseForcesLines f ls = Res.ok (scaleT f ts) := by
  induction ls with
  | nil =>
    intro ts h
    simp only [parseForcesLines] at h
    cases h
    rfl
  | cons l ls ih =>
    intro ts h
    rcases hsw : splitWs l with _ | ⟨x, _ | ⟨y, _ | ⟨z, _ | ⟨w, ws⟩⟩⟩⟩ <;>
      simp only [parseForcesLines, hsw] at h ⊢
    · exact absurd h (by simp)
    · exact absurd h (by simp)
    · exact absurd h (by simp)
    · cases hx : parseFloat x <;> cases hy : parseFloat y <;> cases hz : parseFloat z <;>
        simp only [hx, hy, hz] at h ⊢
      case some.some.some a b c =>
        cases hrec : parseForcesLines 1 ls with
        | ok ts' =>
          rw [hrec] at h
          cases h
          rw [ih ts' hrec]
          simp [scaleT]
        | err => rw [hrec] at h; exact absurd h (by simp)
        | panic => rw [hrec] at h; exact absurd h (by simp)
      all_goals exact absurd h (by simp)
    · exact absurd h (by simp)

theorem parseDipoleLine_factor (f : ℚ) (l : Chars) (t : ℚ × ℚ × ℚ)
    (h : parseDipoleLine 1 l = Res.ok t) :
    parseDipoleLine f l = Res.ok (t.1 * f, t.2.1 * f, t.2.2 * f) := by
  simp only [parseDipoleLine] at h ⊢
  cases h0 : idxParse (splitWs l) 0 with
  | ok a =>
    simp only [h0] at h ⊢
    cases h1 : idxParse (splitWs l) 1 with
    | ok b =>
      simp only [h1] at h ⊢
      cases h2 : idxParse (splitWs l) 2 with
      | ok c =>
        simp only [h2] at h ⊢
        cases h
        simp
      | err => simp only [h2] at h; exact absurd h (by simp)
      | panic => simp only [h2] at h; exact absurd h (by simp)
    | err => simp only [h1] at h; exact absurd h (by simp)
    | panic => simp only [h1] at h; exact absurd h (by simp)
  | err => simp only [h0] at h; exact absurd h (by simp)
  | panic => simp only [h0] at h; exact absurd h (by simp)

/-! ## Single-section document lemma -/

theorem parse_single_sec (H : Chars) (ls : List Chars) (hne : ls ≠ [])
    (htr : trimChars H = H) (hbg : begins "@".data H = true)
    (hls : ∀ l ∈ ls, trimChars l = l ∧ begins "@".data l = false) :
    parse_model_results_single (H :: ls) = processRecords [(H, ls)] {} := by
  rw [parse_single_block H ls hne htr hbg
    (fun l hl => by rw [(hls l hl).1]; exact (hls l hl).2)]
  have hmap : ls.map trimChars = ls := by
    have h1 : ls.map trimChars = ls.map id := by
      apply List.map_congr_left
      intro a ha
      exact (hls a ha).1
    rw [h1, List.map_id]
  rw [hmap]

theorem begins_at_hdr (t : Chars) : begins "@".data ('@' :: t) = true := by
  simp [begins, show "@".data = ['@'] from rfl]

theorem trim_hdr_factor (nm ctok : Chars) (hct : ctok ≠ [])
    (hcw : ∀ ch ∈ ctok, wsp ch = false) :
    trimChars ('@' :: (nm ++ ' ' :: ("unit_factor=".data ++ ctok))) =
      '@' :: (nm ++ ' ' :: ("unit_factor=".data ++ ctok)) := by
  have h2 : '@' :: (nm ++ ' ' :: ("unit_factor=".data ++ ctok)) =
      '@' :: ((nm ++ ' ' :: "unit_factor=".data) ++ ctok) := by simp
  rw [h2]
  exact trim_app '@' _ ctok (by decide) hct hcw

/-! ## Claim C6 -/

/-- Claim C6, counterexample: a structure section with unit_factor=-1
parses identically to the same section without the modifier — the factor
is never applied to structure coordinates (the parsed x coordinate stays
1 rather than being negated). -/
theorem c6_counterexample :
    parse_model_results_single ["@structure unit_factor=-1".data, "C 1.0 2.0 3.0".data] =
      parse_model_results_single ["@structure".data, "C 1.0 2.0 3.0".data] ∧
    parse_model_results_single ["@structure unit_factor=-1".data, "C 1.0 2.0 3.0".data] =
      Res.ok { molecule := some [("C".data, (1, 2, 3))] } ∧
    (1 : ℚ) ≠ -1 * 1 := by
  have hc : parseFloat "-1".data = some (-1) := by
    simp +decide [parseFloat, leadFloat, leadSign, fracSplit, expDispatch, expPart, natOfDigits, digitVal,
      isDigitCh, List.takeWhile, List.dropWhile, List.foldl]
  have hH1 : headerFromStr "@structure unit_factor=-1".data =
      Res.ok ⟨"structure".data, -1⟩ :=
    headerFromStr_factor "structure".data "-1".data (-1) (by decide) (by decide)
      (by decide) (by decide) hc
  have hH2 : headerFromStr "@structure".data = Res.ok ⟨"structure".data, 1⟩ := by
    decide
  have hs1 : parse_model_results_single
      ["@structure unit_factor=-1".data, "C 1.0 2.0 3.0".data] =
      processRecords [("@structure unit_factor=-1".data, ["C 1.0 2.0 3.0".data])] {} :=
    parse_single_sec _ _ (by simp) (by decide) (by decide) (by decide)
  have hs2 : parse_model_results_single ["@structure".data, "C 1.0 2.0 3.0".data] =
      processRecords [("@structure".data, ["C 1.0 2.0 3.0".data])] {} :=
    parse_single_sec _ _ (by simp) (by decide) (by decide) (by decide)
  have hmol : moleculeFromPxyz ["C 1.0 2.0 3.0".data] = Res.ok [("C".data, (1, 2, 3))] := by
    have h1 : parseFloat "1.0".data = some 1 := by
      simp +decide [parseFloat, leadFloat, leadSign, fracSplit, expDispatch, expPart, natOfDigits, digitVal,
        isDigitCh, List.takeWhile, List.dropWhile, List.foldl]
    have h2 : parseFloat "2.0".data = some 2 := by
      simp +decide [parseFloat, leadFloat, leadSign, fracSplit, expDispatch, expPart, natOfDigits, digitVal,
        isDigitCh, List.takeWhile, List.dropWhile, List.foldl]
      norm_num
    have h3 : parseFloat "3.0".data = some 3 := by
      simp +decide [parseFloat, leadFloat, leadSign, fracSplit, expDispatch, expPart, natOfDigits, digitVal,
        isDigitCh, List.takeWhile, List.dropWhile, List.foldl]
      norm_num
    simp +decide [moleculeFromPxyz, atomFromLine,
      show splitWs "C 1.0 2.0 3.0".data =
        ["C".data, "1.0".data, "2.0".data, "3.0".data] from by decide, h1, h2, h3]
  refine ⟨?_, ?_, by norm_num⟩
  · rw [hs1, hs2]
    simp +decide [processRecords, applyRecord, hH1, hH2]
  · rw [hs1]
    simp +decide [processRecords, applyRecord, hH1, hmol]

/-- Claim C6, amended: for the energy, forces and dipole sections a
unit_factor=c header modifier multiplies every parsed value by c, and the
factor defaults to one when the modifier is absent; the structure section,
however, ignores the modifier entirely (its coordinates are passed to the
molecule parser unscaled). -/
theorem c6_amended_thm (ctok : Chars) (c : ℚ) (el : Chars) (v : ℚ)
    (fls : List Chars) (ts : List (ℚ × ℚ × ℚ)) (dl : Chars) (dt : ℚ × ℚ × ℚ)
    (sls : List Chars)
    (hct : ctok ≠ []) (hcw : ∀ ch ∈ ctok, wsp ch = false)
    (hc : parseFloat ctok = some c)
    (hel : trimChars el = el) (hev : parseFloat el = some v)
    (hea : begins "@".data el = false)
    (hfls : ∀ l ∈ fls, trimChars l = l ∧ begins "@".data l = false)
    (hfne : fls ≠ [])
    (hts : parseForcesLines 1 fls = Res.ok ts)
    (hdl : trimChars dl = dl) (hda : begins "@".data dl = false)
    (hdt : parseDipoleLine 1 dl = Res.ok dt)
    (hsls : ∀ l ∈ sls, trimChars l = l ∧ begins "@".data l = false) :
    parse_model_results_single (("@energy unit_factor=".data ++ ctok) :: [el]) =
      Res.ok { energy := some (v * c) } ∧
    parse_model_results_single ("@energy".data :: [el]) =
      Res.ok { energy := some v } ∧
    parse_model_results_single (("@forces unit_factor=".data ++ ctok) :: fls) =
      Res.ok { forces := some (scaleT c ts) } ∧
    parse_model_results_single ("@forces".data :: fls) =
      Res.ok { forces := some ts } ∧
    parse_model_results_single (("@dipole unit_factor=".data ++ ctok) :: [dl]) =
      Res.ok { dipole := some (dt.1 * c, dt.2.1 * c, dt.2.2 * c) } ∧
    parse_model_results_single ("@dipole".data :: [dl]) =
      Res.ok { dipole := some dt } ∧
    parse_model_results_single (("@structure unit_factor=".data ++ ctok) :: sls) =
      parse_model_results_single ("@structure".data :: sls) := by
  have hlE : ∀ l ∈ [el], trimChars l = l ∧ begins "@".data l = false := by
    intro l hl
    rcases List.mem_singleton.mp hl with rfl
    exact ⟨hel, hea⟩
  have hlD : ∀ l ∈ [dl], trimChars l = l ∧ begins "@".data l = false := by
    intro l hl
    rcases List.mem_singleton.mp hl with rfl
    exact ⟨hdl, hda⟩
  refine ⟨?_, ?_, ?_, ?_, ?_, ?_, ?_⟩
  · rw [show "@energy unit_factor=".data ++ ctok =
      '@' :: ("energy".data ++ ' ' :: ("unit_factor=".data ++ ctok)) from rfl]
    rw [parse_single_sec _ [el] (by simp)
      (trim_hdr_factor "energy".data ctok hct hcw) (begins_at_hdr _) hlE]
    simp only [processRecords, applyRecord,
      headerFromStr_factor "energy".data ctok c (by decide) (by decide) hct hcw hc]
    simp +decide [parseEnergySection, hel, hev]
  · rw [show "@energy".data = '@' :: "energy".data from rfl]
    rw [parse_single_sec _ [el] (by simp) (by decide) (begins_at_hdr _) hlE]
    simp only [processRecords, applyRecord,
      headerFromStr_plain "energy".data (by decide) (by decide)]
    simp +decide [parseEnergySection, hel, hev]
  · rw [show "@forces unit_factor=".data ++ ctok =
      '@' :: ("forces".data ++ ' ' :: ("unit_factor=".data ++ ctok)) from rfl]
    rw [parse_single_sec _ fls hfne
      (trim_hdr_factor "forces".data ctok hct hcw) (begins_at_hdr _) hfls]
    simp only [processRecords, applyRecord,
      headerFromStr_factor "forces".data ctok c (by decide) (by decide) hct hcw hc]
    simp +decide [parseForcesLines_factor c fls ts hts]
  · rw [show "@forces".data = '@' :: "forces".data from rfl]
    rw [parse_single_sec _ fls hfne (by decide) (begins_at_hdr _) hfls]
    simp only [processRecords, applyRecord,
      headerFromStr_plain "forces".data (by decide) (by decide)]
    have h1 := parseForcesLines_factor 1 fls ts hts
    simp +decide [hts]
  · rw [show "@dipole unit_factor=".data ++ ctok =
      '@' :: ("dipole".data ++ ' ' :: ("unit_factor=".data ++ ctok)) from rfl]
    rw [parse_single_sec _ [dl] (by simp)
      (trim_hdr_factor "dipole".data ctok hct hcw) (begins_at_hdr _) hlD]
    simp only [processRecords, applyRecord,
      headerFromStr_factor "dipole".data ctok c (by decide) (by decide) hct hcw hc]
    simp +decide [parseDipoleSection, hdl, parseDipoleLine_factor c dl dt hdt]
  · rw [show "@dipole".data = '@' :: "dipole".data from rfl]
    rw [parse_single_sec _ [dl] (by simp) (by decide) (begins_at_hdr _) hlD]
    simp only [processRecords, applyRecord,
      headerFromStr_plain "dipole".data (by decide) (by decide)]
    simp +decide [parseDipoleSection, hdl, hdt]
  · cases sls with
    | nil =>
      rw [show "@structure unit_factor=".data ++ ctok =
        '@' :: ("structure".data ++ ' ' :: ("unit_factor=".data ++ ctok)) from rfl]
      rw [parse_single_hdr _ (trim_hdr_factor "structure".data ctok hct hcw)
        (begins_at_hdr _)]
      rw [parse_single_hdr "@structure".data (by decide) (by decide)]
    | cons s0 srest =>
      rw [show "@structure unit_factor=".data ++ ctok =
        '@' :: ("structure".data ++ ' ' :: ("unit_factor=".data ++ ctok)) from rfl]
      rw [show ("@structure".data : Chars) = '@' :: "structure".data from rfl]
      rw [parse_single_sec _ (s0 :: srest) (by simp)
        (trim_hdr_factor "structure".data ctok hct hcw) (begins_at_hdr _) hsls]
      rw [parse_single_sec _ (s0 :: srest) (by simp) (by decide) (begins_at_hdr _) hsls]
      simp only [processRecords, applyRecord,
        headerFromStr_factor "structure".data ctok c (by decide) (by decide) hct hcw hc,
        headerFromStr_plain "structure".data (by decide) (by decide)]
      simp +decide []

/-- Claim C6, witness: the amended theorem at unit_factor=-1 over concrete
energy, forces and dipole sections — every value is negated. -/
theorem c6_witness :
    parse_model_results_single ["@energy unit_factor=-1".data, "5.0".data] =
      Res.ok { energy := some (-5) } ∧
    parse_model_results_single ["@forces unit_factor=-1".data, "1.0 2.0 3.0".data] =
      Res.ok { forces := some [(-1, -2, -3)] } ∧
    parse_model_results_single ["@dipole unit_factor=-1".data, "0.5 1.5 2.5".data] =
      Res.ok { dipole := some (-(1 / 2), -(3 / 2), -(5 / 2)) } := by
  have h := c6_amended_thm "-1".data (-1) "5.0".data 5 ["1.0 2.0 3.0".data]
    [(1, 2, 3)] "0.5 1.5 2.5".data (1 / 2, 3 / 2, 5 / 2) ["C 1.0 2.0 3.0".data]
    (by decide) (by decide)
    (by simp +decide [parseFloat, leadFloat, leadSign, fracSplit, expDispatch, expPart, natOfDigits,
      digitVal, isDigitCh, List.takeWhile, List.dropWhile, List.foldl])
    (by decide)
    (by simp +decide [parseFloat, leadFloat, leadSign, fracSplit, expDispatch, expPart, natOfDigits,
      digitVal, isDigitCh, List.takeWhile, List.dropWhile, List.foldl]
        norm_num)
    (by decide) (by decide) (by simp)
    (by simp +decide [parseForcesLines,
      show splitWs "1.0 2.0 3.0".data = ["1.0".data, "2.0".data, "3.0".data]
        from by decide,
      parseFloat, leadFloat, leadSign, fracSplit, expDispatch, expPart, natOfDigits, digitVal, isDigitCh,
      List.takeWhile, List.dropWhile, List.foldl]
        norm_num)
    (by decide) (by decide)
    (by simp +decide [parseDipoleLine, idxParse,
      show splitWs "0.5 1.5 2.5".data = ["0.5".data, "1.5".data, "2.5".data]
        from by decide,
      parseFloat, leadFloat, leadSign, fracSplit, expDispatch, expPart, natOfDigits, digitVal, isDigitCh,
      List.takeWhile, List.dropWhile, List.foldl]
        norm_num)
    (by decide)
  refine ⟨?_, ?_, ?_⟩
  · have h1 := h.1
    norm_num at h1
    exact h1
  · have h2 := h.2.2.1
    simp only [scaleT, List.map] at h2
    norm_num at h2
    exact h2
  · have h3 := h.2.2.2.2.1
    norm_num at h3
    exact h3

/-! ## Digit-character and fmt16 lemmas -/

theorem natDigitsAux_lt (fuel : ℕ) : ∀ n d, d ∈ natDigitsAux fuel n → d < 10 := by
  induction fuel with
  | zero => intro n d hd; simp [natDigitsAux] at hd
  | succ fuel ih =>
    intro n d hd
    by_cases hn : n = 0
    · simp [natDigitsAux, hn] at hd
    · simp only [natDigitsAux, hn, Bool.false_eq_true, if_false, List.mem_cons] at hd
      rcases hd with h1 | h2
      · rw [h1]; exact Nat.mod_lt n (by norm_num)
      · exact ih (n / 10) d h2

theorem wsp_digitCh (d : ℕ) (hd : d < 10) : wsp (digitCh d) = false := by
  interval_cases d <;> rfl

theorem natChars_nows (n : ℕ) : ∀ c ∈ natChars n, wsp c = false := by
  intro c hc
  by_cases hn : n = 0
  · simp [natChars, hn] at hc
    rw [hc]; rfl
  · simp only [natChars, hn, Bool.false_eq_true, if_false, List.mem_map,
      List.mem_reverse] at hc
    rcases hc with ⟨d, hd, rfl⟩
    exact wsp_digitCh d (natDigitsAux_lt n n d hd)

theorem padChars_nows (k n : ℕ) : ∀ c ∈ padChars k n, wsp c = false := by
  intro c hc
  simp only [padChars, List.mem_append, List.mem_replicate, List.mem_map,
    List.mem_reverse] at hc
  rcases hc with ⟨_, rfl⟩ | ⟨d, hd, rfl⟩
  · rfl
  · exact wsp_digitCh d (natDigitsAux_lt n n d hd)

theorem natDigits_ne_nil (n : ℕ) (hn : n ≠ 0) : natDigits n ≠ [] := by
  obtain ⟨m, rfl⟩ := Nat.exists_eq_succ_of_ne_zero hn
  simp [natDigits, natDigitsAux]

theorem fmt16_nows (q : ℚ) : ∀ c ∈ fmt16 q, wsp c = false := by
  intro c hc
  simp only [fmt16, List.mem_append, List.mem_cons] at hc
  rcases hc with (h1 | h2) | (h3 | h4)
  · by_cases hq : q < 0
    · rw [if_pos hq] at h1
      rcases List.mem_singleton.mp h1 with rfl
      rfl
    · rw [if_neg hq] at h1
      simp at h1
  · exact natChars_nows _ c h2
  · rw [h3]; rfl
  · exact padChars_nows _ _ c h4

theorem fmt16_ne (q : ℚ) : fmt16 q ≠ [] := by
  simp only [fmt16]
  intro hcon
  rcases List.append_eq_nil.mp hcon with ⟨h1, h2⟩
  rcases List.append_eq_nil.mp h1 with ⟨_, h3⟩
  by_cases hz : (⌊|q|⌋).toNat = 0
  · simp [natChars, hz] at h3
  · rw [natChars, if_neg hz] at h3
    have hne := natDigits_ne_nil _ hz
    simp only [List.map_eq_nil_iff, List.reverse_eq_nil_iff] at h3
    exact hne h3

theorem splitWs_token_wsc (t rest : Chars) (w : Char) (hw : wsp w = true)
    (hne : t ≠ []) (h : ∀ c ∈ t, wsp c = false) :
    splitWs (t ++ w :: rest) = t :: splitWs rest := by
  unfold splitWs
  rw [splitWsAux_tok t (w :: rest) [] h]
  have hna : t.reverse ++ [] ≠ [] := by simp [hne]
  simp only [splitWsAux, hw, if_pos, hna, Bool.true_eq_false]
  simp

theorem splitWs_posLine (t : ℚ × ℚ × ℚ) :
    splitWs (posLine t) = [fmt16 t.1, fmt16 t.2.1, fmt16 t.2.2] := by
  have hsh : posLine t =
      fmt16 t.1 ++ ' ' :: (fmt16 t.2.1 ++ ' ' :: (fmt16 t.2.2 ++ '\n' :: [])) := by
    simp [posLine]
  rw [hsh, splitWs_token_wsc _ _ ' ' rfl (fmt16_ne _) (fmt16_nows _),
    splitWs_token_wsc _ _ ' ' rfl (fmt16_ne _) (fmt16_nows _),
    splitWs_token_wsc _ _ '\n' rfl (fmt16_ne _) (fmt16_nows _)]
  rfl

/-! ## Claim C9 -/

/-- Claim C9: the first interactive submit call feeds no positions to the
engine's stdin; every later call first runs the control script's resume
action when one is configured (a no-op otherwise), then writes the scaled
positions — one whitespace-separated triple per atom per line — and ends
with a flush. -/
theorem c9_interact_thm (hasIntFile resumeOk : Bool)
    (scaled : Option (List (ℚ × ℚ × ℚ))) (ps : List (ℚ × ℚ × ℚ)) (n : ℕ) :
    interactInputEvents hasIntFile resumeOk scaled 0 = Res.ok [] ∧
    (n ≠ 0 → resumeOk = true →
      interactInputEvents hasIntFile resumeOk (some ps) n =
        Res.ok ((if hasIntFile then [Ev.resume] else []) ++
          ps.map (fun t => Ev.writeLine (posLine t)) ++ [Ev.flush])) ∧
    (∀ t : ℚ × ℚ × ℚ, splitWs (posLine t) = [fmt16 t.1, fmt16 t.2.1, fmt16 t.2.2]) := by
  refine ⟨by simp [interactInputEvents], ?_, fun t => splitWs_posLine t⟩
  intro hn hr
  cases hasIntFile <;> simp [interactInputEvents, input_positions, hn, hr]

/-- Claim C9, witness: the theorem at a concrete one-atom molecule on the
second call with a configured control script. -/
theorem c9_witness :
    interactInputEvents true true (some [(1 / 2, 0, -1)]) 1 =
      Res.ok [Ev.resume, Ev.writeLine (posLine (1 / 2, 0, -1)), Ev.flush] ∧
    interactInputEvents true true (some [(1 / 2, 0, -1)]) 0 = Res.ok [] := by
  have h := c9_interact_thm true true (some [(1 / 2, 0, -1)]) [(1 / 2, 0, -1)] 1
  refine ⟨?_, h.1⟩
  have h2 := h.2.1 (by decide) rfl
  simpa using h2

/-! ## Claim C10 -/

/-- Claim C10: set_energy (the ModelProperties impl in src/lib.rs) asserts
the energy's sign, so it panics on every sign-negative energy; the
interactive compute step stores the parsed E0 energy through it, so a
block parsing to a negative energy aborts the computation with a panic
instead of producing a result. -/
theorem c10_negative_energy_thm (e : ℚ) (mp : ModelProperties) (d : Bool)
    (pre : List Chars) (sl : Chars) (rest : List Chars) (fs : List (ℚ × ℚ × ℚ))
    (he : e < 0)
    (hp : parse_energy_and_forces d pre = Res.ok (e, fs))
    (hsen : ∀ l ∈ pre, isSentinel l = false)
    (hsl : isSentinel sl = true) :
    ModelProperties.setEnergy mp e = Res.panic ∧
    compute_mol d (pre ++ sl :: rest) = Res.panic := by
  have hnot : ¬ (0 ≤ e) := not_le.mpr he
  have hsign : isSignPositiveQ e = false := by
    simp [isSignPositiveQ, hnot]
  refine ⟨by simp [ModelProperties.setEnergy, hsign], ?_⟩
  unfold compute_mol
  rw [compute_mol_go_append d pre [] (sl :: rest) hsen]
  simp only [List.nil_append, compute_mol_go, hsl, if_pos, hp,
    ModelProperties.setEnergy, hsign, Bool.false_eq_true, if_false]

/-- Claim C10, witness: a concrete interactive output block parsing to the
negative energy -3 makes set_energy and the compute step panic. -/
theorem c10_witness :
    ModelProperties.setEnergy {} (-3) = Res.panic ∧
    compute_mol false
      ["FORCES:".data, " 1.0 2.0 3.0".data, " 1 F= -2.0 E0= -3.0 x".data,
        "POSITIONS: reading from stdin".data] = Res.panic := by
  have hp : parse_energy_and_forces false
      ["FORCES:".data, " 1.0 2.0 3.0".data, " 1 F= -2.0 E0= -3.0 x".data] =
      Res.ok (-3, [(1, 2, 3)]) := by
    simp +decide [parse_energy_and_forces, read_energy_and_forces, firstIdx,
      begins, endsIn, takeWhileSome, parseXyzLine, parseEnergyLine, space1,
      parseFloat, leadFloat, leadSign, fracSplit, expDispatch, expPart, natOfDigits, digitVal, isDigitCh,
      wsp, List.takeWhile, List.dropWhile, List.foldl]
    norm_num
  have h := c10_negative_energy_thm (-3) {} false
    ["FORCES:".data, " 1.0 2.0 3.0".data, " 1 F= -2.0 E0= -3.0 x".data]
    "POSITIONS: reading from stdin".data [] [(1, 2, 3)]
    (by norm_num) hp (by decide) (by decide)
  exact h

/-! ## Digit string arithmetic -/

theorem takeWhile_all_append (p : Char → Bool) (l1 l2 : Chars)
    (h : ∀ c ∈ l1, p c = true) :
    (l1 ++ l2).takeWhile p = l1 ++ l2.takeWhile p := by
  induction l1 with
  | nil => simp
  | cons c t ih =>
    have hc := h c (List.mem_cons_self c t)
    simp only [List.cons_append, List.takeWhile_cons, hc, if_pos]
    rw [ih (fun x hx => h x (List.mem_cons_of_mem c hx))]

theorem dropWhile_all_append (p : Char → Bool) (l1 l2 : Chars)
    (h : ∀ c ∈ l1, p c = true) :
    (l1 ++ l2).dropWhile p = l2.dropWhile p := by
  induction l1 with
  | nil => simp
  | cons c t ih =>
    have hc := h c (List.mem_cons_self c t)
    simp only [List.cons_append, List.dropWhile_cons, hc, if_pos]
    exact ih (fun x hx => h x (List.mem_cons_of_mem c hx))

theorem digitVal_digitCh (d : ℕ) (hd : d < 10) : digitVal (digitCh d) = d := by
  interval_cases d <;> rfl

theorem isDigitCh_digitCh (d : ℕ) (hd : d < 10) : isDigitCh (digitCh d) = true := by
  interval_cases d <;> rfl

theorem natOfDigits_from (a : ℕ) (l : Chars) :
    List.foldl (fun n c => 10 * n + digitVal c) a l =
      a * 10 ^ l.length + natOfDigits l := by
  induction l generalizing a with
  | nil => simp [natOfDigits]
  | cons c t ih =>
    have h1 := ih (10 * a + digitVal c)
    have h2 := ih (10 * 0 + digitVal c)
    simp only [List.foldl_cons, List.length_cons, natOfDigits] at h1 h2 ⊢
    rw [h1, h2]
    ring

theorem natOfDigits_append (l1 l2 : Chars) :
    natOfDigits (l1 ++ l2) = natOfDigits l1 * 10 ^ l2.length + natOfDigits l2 := by
  simp only [natOfDigits, List.foldl_append]
  exact natOfDigits_from _ l2

theorem natOfDigits_replicate_zero (z : ℕ) (l : Chars) :
    natOfDigits (List.replicate z '0' ++ l) = natOfDigits l := by
  rw [natOfDigits_append]
  have h0 : natOfDigits (List.replicate z '0') = 0 := by
    induction z with
    | zero => rfl
    | succ z ih =>
      simp only [List.replicate_succ, natOfDigits, List.foldl_cons] at ih ⊢
      have h00 : (10 * 0 + digitVal '0') = 0 := by decide
      rw [h00]
      exact ih
  rw [h0]
  simp

theorem natDigitsAux_val (fuel : ℕ) : ∀ n, n ≤ fuel →
    natOfDigits ((natDigitsAux fuel n).reverse.map digitCh) = n := by
  induction fuel with
  | zero =>
    intro n hn
    interval_cases n
    rfl
  | succ fuel ih =>
    intro n hn
    by_cases h0 : n = 0
    · subst h0; rfl
    · have hdiv : n / 10 ≤ fuel := by
        have := Nat.div_lt_self (Nat.pos_of_ne_zero h0) (by norm_num : 1 < 10)
        omega
      simp only [natDigitsAux, h0, Bool.false_eq_true, if_false, List.reverse_cons,
        List.map_append, List.map_cons, List.map_nil]
      rw [natOfDigits_append, ih (n / 10) hdiv]
      have hmod : n % 10 < 10 := Nat.mod_lt n (by norm_num)
      simp only [List.length_cons, List.length_nil, natOfDigits, List.foldl_cons,
        List.foldl_nil]
      rw [digitVal_digitCh (n % 10) hmod]
      omega

theorem natDigits_val (n : ℕ) :
    natOfDigits ((natDigits n).reverse.map digitCh) = n :=
  natDigitsAux_val n n le_rfl

theorem natChars_val (n : ℕ) : natOfDigits (natChars n) = n := by
  by_cases h : n = 0
  · subst h; decide
  · simp only [natChars, h, Bool.false_eq_true, if_false]
    exact natDigits_val n

theorem natDigitsAux_len (fuel : ℕ) : ∀ n k, n ≤ fuel → n < 10 ^ k →
    (natDigitsAux fuel n).length ≤ k := by
  induction fuel with
  | zero => intro n k _ _; simp [natDigitsAux]
  | succ fuel ih =>
    intro n k hn hk
    by_cases h0 : n = 0
    · simp [natDigitsAux, h0]
    · cases k with
      | zero =>
        simp only [pow_zero, Nat.lt_one_iff] at hk
        exact absurd hk h0
      | succ k =>
        have hdiv : n / 10 ≤ fuel := by
          have := Nat.div_lt_self (Nat.pos_of_ne_zero h0) (by norm_num : 1 < 10)
          omega
        have hdk : n / 10 < 10 ^ k := by
          rw [Nat.div_lt_iff_lt_mul (by norm_num : 0 < 10)]
          calc n < 10 ^ (k + 1) := hk
          _ = 10 ^ k * 10 := by ring
        simp only [natDigitsAux, h0, Bool.false_eq_true, if_false, List.length_cons]
        exact Nat.succ_le_succ (ih (n / 10) k hdiv hdk)

theorem natDigits_len (n k : ℕ) (h : n < 10 ^ k) : (natDigits n).length ≤ k :=
  natDigitsAux_len n n k le_rfl h

theorem padChars_len (k n : ℕ) (h : n < 10 ^ k) : (padChars k n).length = k := by
  have hl : ((natDigits n).reverse.map digitCh).length ≤ k := by
    rw [List.length_map, List.length_reverse]
    exact natDigits_len n k h
  simp only [padChars, List.length_append, List.length_replicate]
  omega

theorem padChars_val (k n : ℕ) : natOfDigits (padChars k n) = n := by
  simp only [padChars]
  rw [natOfDigits_replicate_zero]
  exact natDigits_val n

theorem natChars_digits (n : ℕ) : ∀ c ∈ natChars n, isDigitCh c = true := by
  intro c hc
  by_cases h : n = 0
  · simp [natChars, h] at hc
    rw [hc]; rfl
  · simp only [natChars, h, Bool.false_eq_true, if_false, List.mem_map,
      List.mem_reverse] at hc
    rcases hc with ⟨d, hd, rfl⟩
    exact isDigitCh_digitCh d (natDigitsAux_lt n n d hd)

theorem padChars_digits (k n : ℕ) : ∀ c ∈ padChars k n, isDigitCh c = true := by
  intro c hc
  simp only [padChars, List.mem_append, List.mem_replicate, List.mem_map,
    List.mem_reverse] at hc
  rcases hc with ⟨_, rfl⟩ | ⟨d, hd, rfl⟩
  · rfl
  · exact isDigitCh_digitCh d (natDigitsAux_lt n n d hd)

theorem natChars_ne_nil (n : ℕ) : natChars n ≠ [] := by
  by_cases h : n = 0
  · simp [natChars, h]
  · simp only [natChars, h, Bool.false_eq_true, if_false]
    intro hcon
    simp only [List.map_eq_nil_iff, List.reverse_eq_nil_iff] at hcon
    exact natDigits_ne_nil n h hcon

/-! ## Base-ten logarithm characterization -/

theorem natLog10Aux_spec (fuel : ℕ) : ∀ n, n ≤ fuel → 1 ≤ n →
    10 ^ natLog10Aux fuel n ≤ n ∧ n < 10 ^ (natLog10Aux fuel n + 1) := by
  induction fuel with
  | zero => intro n hn h1; omega
  | succ fuel ih =>
    intro n hn h1
    by_cases hlt : n < 10
    · simp only [natLog10Aux, hlt, if_pos]
      constructor
      · simpa using h1
      · simpa using hlt
    · push_neg at hlt
      have hdiv : n / 10 ≤ fuel := by
        have := Nat.div_lt_self (by omega : 0 < n) (by norm_num : 1 < 10)
        omega
      have hd1 : 1 ≤ n / 10 := Nat.one_le_div_iff (by norm_num) |>.mpr hlt
      obtain ⟨g1, g2⟩ := ih (n / 10) hdiv hd1
      have hten : ¬ (n < 10) := by omega
      simp only [natLog10Aux, hten, Bool.false_eq_true, if_false]
      constructor
      · calc 10 ^ (natLog10Aux fuel (n / 10) + 1)
            = 10 ^ natLog10Aux fuel (n / 10) * 10 := by ring
        _ ≤ (n / 10) * 10 := Nat.mul_le_mul_right 10 g1
        _ ≤ n := Nat.div_mul_le_self n 10
      · have hdm := Nat.div_add_mod n 10
        have hml := Nat.mod_lt n (show 0 < 10 by norm_num)
        calc n < (n / 10 + 1) * 10 := by omega
        _ ≤ 10 ^ (natLog10Aux fuel (n / 10) + 1) * 10 :=
            Nat.mul_le_mul_right 10 (by omega)
        _ = 10 ^ (natLog10Aux fuel (n / 10) + 1 + 1) := by ring

theorem natLog10_spec (n : ℕ) (h : 1 ≤ n) :
    10 ^ natLog10 n ≤ n ∧ n < 10 ^ (natLog10 n + 1) :=
  natLog10Aux_spec n n le_rfl h

/-! ## Scientific exponent correctness -/

theorem sciExp_spec (a : ℚ) (ha : 0 < a) :
    (10 : ℚ) ^ sciExp a ≤ a ∧ a < (10 : ℚ) ^ (sciExp a + 1) := by
  by_cases h1 : 1 ≤ a
  · have hfl1 : (1 : ℤ) ≤ ⌊a⌋ := Int.le_floor.mpr (by exact_mod_cast h1)
    have hflnn : (0 : ℤ) ≤ ⌊a⌋ := by omega
    have hcast : ((⌊a⌋.toNat : ℤ) : ℚ) = ((⌊a⌋ : ℤ) : ℚ) := by
      rw [Int.toNat_of_nonneg hflnn]
    have hm1 : 1 ≤ ⌊a⌋.toNat := by omega
    obtain ⟨g1, g2⟩ := natLog10_spec ⌊a⌋.toNat hm1
    rw [sciExp, if_pos h1]
    constructor
    · have c1 : ((10 ^ natLog10 ⌊a⌋.toNat : ℕ) : ℚ) ≤ ((⌊a⌋.toNat : ℕ) : ℚ) := by
        exact_mod_cast g1
      have c2 : ((⌊a⌋.toNat : ℕ) : ℚ) ≤ a := by
        push_cast at hcast
        rw [hcast]
        exact Int.floor_le a
      calc (10 : ℚ) ^ ((natLog10 ⌊a⌋.toNat : ℤ)) = ((10 ^ natLog10 ⌊a⌋.toNat : ℕ) : ℚ) := by
            push_cast
            rw [zpow_natCast]
      _ ≤ a := le_trans c1 c2
    · have c3 : a < ((⌊a⌋.toNat : ℕ) : ℚ) + 1 := by
        push_cast at hcast
        rw [hcast]
        exact Int.lt_floor_add_one a
      have c4 : ((⌊a⌋.toNat : ℕ) : ℚ) + 1 ≤ ((10 ^ (natLog10 ⌊a⌋.toNat + 1) : ℕ) : ℚ) := by
        exact_mod_cast g2
      calc a < ((⌊a⌋.toNat : ℕ) : ℚ) + 1 := c3
      _ ≤ ((10 ^ (natLog10 ⌊a⌋.toNat + 1) : ℕ) : ℚ) := c4
      _ = (10 : ℚ) ^ ((natLog10 ⌊a⌋.toNat : ℤ) + 1) := by
            push_cast
            rw [← zpow_natCast (10 : ℚ) (natLog10 ⌊a⌋.toNat + 1)]
            push_cast
            ring_nf
  · push_neg at h1
    have hb : 1 < a⁻¹ := one_lt_inv_iff₀.mpr ⟨ha, h1⟩
    have hbpos : 0 < a⁻¹ := by positivity
    have hcb2 : (2 : ℤ) ≤ ⌈a⁻¹⌉ := by
      have := Int.lt_ceil.mpr (show ((1 : ℤ) : ℚ) < a⁻¹ by exact_mod_cast hb)
      omega
    have hcbnn : (0 : ℤ) ≤ ⌈a⁻¹⌉ := by omega
    have htn2 : 2 ≤ (⌈a⁻¹⌉).toNat := by omega
    have hc1 : 1 ≤ (⌈a⁻¹⌉).toNat - 1 := by omega
    obtain ⟨g1, g2⟩ := natLog10_spec ((⌈a⁻¹⌉).toNat - 1) hc1
    have hccast : (((⌈a⁻¹⌉).toNat - 1 : ℕ) : ℚ) = ((⌈a⁻¹⌉ : ℤ) : ℚ) - 1 := by
      have : ((((⌈a⁻¹⌉).toNat - 1 : ℕ) : ℤ) : ℚ) = ((⌈a⁻¹⌉ - 1 : ℤ) : ℚ) := by
        congr 1
        omega
      push_cast at this ⊢
      linarith
    rw [sciExp, if_neg (not_le.mpr h1)]
    set L := natLog10 ((⌈a⁻¹⌉).toNat - 1) with hL
    have hbub : a⁻¹ ≤ ((10 ^ (L + 1) : ℕ) : ℚ) := by
      have s1 : a⁻¹ ≤ ((⌈a⁻¹⌉ : ℤ) : ℚ) := Int.le_ceil a⁻¹
      have s2 : ((⌈a⁻¹⌉ : ℤ) : ℚ) ≤ ((10 ^ (L + 1) : ℕ) : ℚ) := by
        have hstep : (⌈a⁻¹⌉).toNat - 1 + 1 ≤ 10 ^ (L + 1) := by omega
        have h4 : (⌈a⁻¹⌉ : ℤ) ≤ ((10 ^ (L + 1) : ℕ) : ℤ) := by omega
        exact_mod_cast h4
      linarith
    have hblb : ((10 ^ L : ℕ) : ℚ) < a⁻¹ := by
      have s1 : ((10 ^ L : ℕ) : ℚ) ≤ (((⌈a⁻¹⌉).toNat - 1 : ℕ) : ℚ) := by exact_mod_cast g1
      have s2 : (((⌈a⁻¹⌉).toNat - 1 : ℕ) : ℚ) < a⁻¹ := by
        rw [hccast]
        have := Int.ceil_lt_add_one a⁻¹
        linarith
      linarith
    have hp1 : (0 : ℚ) < ((10 ^ (L + 1) : ℕ) : ℚ) := by positivity
    have hp2 : (0 : ℚ) < ((10 ^ L : ℕ) : ℚ) := by positivity
    constructor
    · rw [show (-(((L : ℤ)) + 1)) = -(((L + 1 : ℕ) : ℤ)) by push_cast; ring]
      rw [zpow_neg, zpow_natCast]
      have : ((10 : ℚ) ^ (L + 1))⁻¹ ≤ (a⁻¹)⁻¹ := by
        rw [inv_le_inv₀ (by positivity) hbpos]
        push_cast at hbub
        exact hbub
      rw [inv_inv] at this
      exact this
    · rw [show (-(((L : ℤ)) + 1) + 1) = -((L : ℤ)) by ring]
      rw [zpow_neg, zpow_natCast]
      have : (a⁻¹)⁻¹ < ((10 : ℚ) ^ L)⁻¹ := by
        rw [inv_lt_inv₀ hbpos (by positivity)]
        push_cast at hblb
        exact hblb
      rw [inv_inv] at this
      exact this

theorem sciExp_unique (a : ℚ) (e : ℤ) (h1 : (10 : ℚ) ^ e ≤ a)
    (h2 : a < (10 : ℚ) ^ (e + 1)) : sciExp a = e := by
  have ha : 0 < a := lt_of_lt_of_le (zpow_pos (by norm_num) e) h1
  obtain ⟨g1, g2⟩ := sciExp_spec a ha
  by_contra hne
  rcases lt_or_gt_of_ne hne with hlt | hgt
  · have : (10 : ℚ) ^ (sciExp a + 1) ≤ (10 : ℚ) ^ e :=
      zpow_le_zpow_right₀ (by norm_num) (by omega)
    linarith
  · have : (10 : ℚ) ^ (e + 1) ≤ (10 : ℚ) ^ sciExp a :=
      zpow_le_zpow_right₀ (by norm_num) (by omega)
    linarith

theorem sciMant_bounds (a : ℚ) (ha : 0 < a) :
    10 ^ 12 ≤ sciMant a (sciExp a) ∧ sciMant a (sciExp a) < 10 ^ 13 := by
  obtain ⟨g1, g2⟩ := sciExp_spec a ha
  have hp : (0 : ℚ) < (10 : ℚ) ^ ((12 : ℤ) - sciExp a) := zpow_pos (by norm_num) _
  have hten : (10 : ℚ) ≠ 0 := by norm_num
  have hm1 : (10 : ℚ) ^ (12 : ℤ) ≤ a * (10 : ℚ) ^ ((12 : ℤ) - sciExp a) := by
    calc (10 : ℚ) ^ (12 : ℤ)
        = (10 : ℚ) ^ sciExp a * (10 : ℚ) ^ ((12 : ℤ) - sciExp a) := by
          rw [← zpow_add₀ hten]
          ring_nf
    _ ≤ a * (10 : ℚ) ^ ((12 : ℤ) - sciExp a) :=
          mul_le_mul_of_nonneg_right g1 (le_of_lt hp)
  have hm2 : a * (10 : ℚ) ^ ((12 : ℤ) - sciExp a) < (10 : ℚ) ^ (13 : ℤ) := by
    calc a * (10 : ℚ) ^ ((12 : ℤ) - sciExp a)
        < (10 : ℚ) ^ (sciExp a + 1) * (10 : ℚ) ^ ((12 : ℤ) - sciExp a) :=
          mul_lt_mul_of_pos_right g2 hp
    _ = (10 : ℚ) ^ (13 : ℤ) := by
          rw [← zpow_add₀ hten]
          ring_nf
  have hfl : (10 ^ 12 : ℤ) ≤ ⌊a * (10 : ℚ) ^ ((12 : ℤ) - sciExp a)⌋ := by
    apply Int.le_floor.mpr
    have hq : (((10 ^ 12 : ℤ)) : ℚ) = (10 : ℚ) ^ (12 : ℤ) := by norm_num
    rw [hq]
    exact hm1
  have hfu : ⌊a * (10 : ℚ) ^ ((12 : ℤ) - sciExp a)⌋ < (10 ^ 13 : ℤ) := by
    apply Int.floor_lt.mpr
    have hq : (((10 ^ 13 : ℤ)) : ℚ) = (10 : ℚ) ^ (13 : ℤ) := by norm_num
    rw [hq]
    exact hm2
  unfold sciMant
  have h12n : (10 : ℕ) ^ 12 = 1000000000000 := by norm_num
  have h13n : (10 : ℕ) ^ 13 = 10000000000000 := by norm_num
  have h12z : (10 : ℤ) ^ 12 = 1000000000000 := by norm_num
  have h13z : (10 : ℤ) ^ 13 = 10000000000000 := by norm_num
  rw [h12n, h13n]
  rw [h12z] at hfl
  rw [h13z] at hfu
  omega

/-! ## Float literal parsing of the scientific shape -/

theorem takeWhile_all (p : Char → Bool) (l : Chars) (h : ∀ c ∈ l, p c = true) :
    l.takeWhile p = l := by
  have := takeWhile_all_append p l [] h
  simpa using this

theorem dropWhile_all (p : Char → Bool) (l : Chars) (h : ∀ c ∈ l, p c = true) :
    l.dropWhile p = [] := by
  have := dropWhile_all_append p l [] h
  simpa using this

theorem isDigitCh_ne_plus (c : Char) (h : isDigitCh c = true) : c ≠ '+' := by
  intro hc
  rw [hc] at h
  exact absurd h (by decide)

theorem isDigitCh_ne_minus (c : Char) (h : isDigitCh c = true) : c ≠ '-' := by
  intro hc
  rw [hc] at h
  exact absurd h (by decide)

theorem isDigitCh_ne_dot (c : Char) (h : isDigitCh c = true) : c ≠ '.' := by
  intro hc
  rw [hc] at h
  exact absurd h (by decide)

theorem leadSign_digit (c : Char) (rest : Chars) (h : isDigitCh c = true) :
    leadSign (c :: rest) = (1, c :: rest) := by
  unfold leadSign
  split
  · next r heq =>
    simp only [List.cons.injEq] at heq
    exact absurd heq.1 (isDigitCh_ne_plus c h)
  · next r heq =>
    simp only [List.cons.injEq] at heq
    exact absurd heq.1 (isDigitCh_ne_minus c h)
  · rfl

theorem expPart_digits (mant : ℚ) (w : Chars) (ds : Chars) (hne : ds ≠ [])
    (hdig : ∀ c ∈ ds, isDigitCh c = true) :
    expPart mant w ds = some (mant * 10 ^ ((1 : ℤ) * (natOfDigits ds : ℤ)), []) := by
  obtain ⟨c, t, rfl⟩ := List.exists_cons_of_ne_nil hne
  have hc := hdig c (List.mem_cons_self c t)
  unfold expPart
  split
  · next r heq =>
    simp only [List.cons.injEq] at heq
    exact absurd heq.1 (isDigitCh_ne_plus c hc)
  · next r heq =>
    simp only [List.cons.injEq] at heq
    exact absurd heq.1 (isDigitCh_ne_minus c hc)
  · simp only [takeWhile_all isDigitCh (c :: t) hdig, dropWhile_all isDigitCh (c :: t) hdig]
    simp

theorem expPart_neg_digits (mant : ℚ) (w : Chars) (ds : Chars) (hne : ds ≠ [])
    (hdig : ∀ c ∈ ds, isDigitCh c = true) :
    expPart mant w ('-' :: ds) =
      some (mant * 10 ^ ((-1 : ℤ) * (natOfDigits ds : ℤ)), []) := by
  unfold expPart
  split
  · next r heq => simp at heq
  · next r heq =>
    simp only [List.cons.injEq, true_and] at heq
    subst heq
    simp only [takeWhile_all isDigitCh ds hdig, dropWhile_all isDigitCh ds hdig]
    obtain ⟨c, t, rfl⟩ := List.exists_cons_of_ne_nil hne
    simp
  · next hn1 hn2 => exact absurd rfl (hn2 ds)

theorem leadFloat_shape (cs : Chars) (sgn : ℚ) (d0 : ℕ) (pad : Chars) (e : ℤ)
    (hs : leadSign cs = (sgn, digitCh d0 :: '.' :: (pad ++ ('E' :: intChars e))))
    (hd0 : d0 < 10)
    (hpad : ∀ c ∈ pad, isDigitCh c = true) :
    leadFloat cs =
      some (sgn * (natOfDigits ([digitCh d0] ++ pad) : ℚ) / 10 ^ pad.length *
        (10 : ℚ) ^ e, []) := by
  have hdig0 : isDigitCh (digitCh d0) = true := isDigitCh_digitCh d0 hd0
  have htake : List.takeWhile isDigitCh
      (digitCh d0 :: '.' :: (pad ++ ('E' :: intChars e))) = [digitCh d0] := by
    rw [List.takeWhile_cons, if_pos hdig0, List.takeWhile_cons, if_neg (by decide)]
  have hdrop : List.dropWhile isDigitCh
      (digitCh d0 :: '.' :: (pad ++ ('E' :: intChars e))) =
      '.' :: (pad ++ ('E' :: intChars e)) := by
    rw [List.dropWhile_cons, if_pos hdig0, List.dropWhile_cons, if_neg (by decide)]
  have hfrac : fracSplit ('.' :: (pad ++ ('E' :: intChars e))) =
      (pad, 'E' :: intChars e) := by
    simp only [fracSplit]
    rw [takeWhile_all_append isDigitCh pad _ hpad,
      dropWhile_all_append isDigitCh pad _ hpad]
    rw [List.takeWhile_cons, if_neg (by decide), List.dropWhile_cons,
      if_neg (by decide)]
    simp
  simp only [leadFloat, hs, htake, hdrop, hfrac]
  rw [if_neg (by simp)]
  simp only [expDispatch]
  by_cases he : e < 0
  · have hic : intChars e = '-' :: natChars e.natAbs := by
      simp only [intChars, if_pos he]
    rw [hic, expPart_neg_digits _ _ _ (natChars_ne_nil e.natAbs) (natChars_digits e.natAbs)]
    rw [natChars_val]
    have hexp : (-1 : ℤ) * (e.natAbs : ℤ) = e := by omega
    rw [hexp]
  · have hic : intChars e = natChars e.natAbs := by
      simp only [intChars, if_neg he]
    rw [hic, expPart_digits _ _ _ (natChars_ne_nil e.natAbs) (natChars_digits e.natAbs)]
    rw [natChars_val]
    have hexp : (1 : ℤ) * (e.natAbs : ℤ) = e := by omega
    rw [hexp]

theorem parseFloat_shape_core (cs : Chars) (sgn : ℚ) (D : ℕ) (e : ℤ)
    (hD2 : D < 10 ^ 13)
    (hs : leadSign cs = (sgn, digitCh (D / 10 ^ 12) :: '.' ::
      (padChars 12 (D % 10 ^ 12) ++ ('E' :: intChars e)))) :
    parseFloat cs = some (sgn * (D : ℚ) / 10 ^ 12 * (10 : ℚ) ^ e) := by
  have hd0 : D / 10 ^ 12 < 10 := by
    have h13 : (10 : ℕ) ^ 13 = 10000000000000 := by norm_num
    have h12 : (10 : ℕ) ^ 12 = 1000000000000 := by norm_num
    omega
  have hlf := leadFloat_shape cs sgn (D / 10 ^ 12) (padChars 12 (D % 10 ^ 12)) e hs
    hd0 (padChars_digits 12 (D % 10 ^ 12))
  have hlen : (padChars 12 (D % 10 ^ 12)).length = 12 :=
    padChars_len 12 _ (Nat.mod_lt _ (by norm_num))
  have hval : natOfDigits ([digitCh (D / 10 ^ 12)] ++ padChars 12 (D % 10 ^ 12)) = D := by
    rw [natOfDigits_append, padChars_val, hlen]
    have h1 : natOfDigits [digitCh (D / 10 ^ 12)] = D / 10 ^ 12 := by
      show 10 * 0 + digitVal (digitCh (D / 10 ^ 12)) = D / 10 ^ 12
      rw [digitVal_digitCh _ hd0]
      omega
    rw [h1]
    have h12 : (10 : ℕ) ^ 12 = 1000000000000 := by norm_num
    simp only [h12]
    omega
  rw [hval, hlen] at hlf
  unfold parseFloat
  rw [hlf]

theorem parseFloat_sciShape (neg : Bool) (D : ℕ) (e : ℤ)
    (hD2 : D < 10 ^ 13) :
    parseFloat ((if neg then ['-'] else []) ++
      (digitCh (D / 10 ^ 12) :: '.' :: padChars 12 (D % 10 ^ 12)) ++
      ('E' :: intChars e)) =
    some ((if neg then (-1 : ℚ) else 1) * (D : ℚ) / 10 ^ 12 * (10 : ℚ) ^ e) := by
  have hd0 : D / 10 ^ 12 < 10 := by
    have h13 : (10 : ℕ) ^ 13 = 10000000000000 := by norm_num
    have h12 : (10 : ℕ) ^ 12 = 1000000000000 := by norm_num
    omega
  cases neg with
  | false =>
    apply parseFloat_shape_core _ _ _ _ hD2
    show leadSign (digitCh (D / 10 ^ 12) :: '.' ::
      (padChars 12 (D % 10 ^ 12) ++ ('E' :: intChars e))) = _
    exact leadSign_digit _ _ (isDigitCh_digitCh _ hd0)
  | true =>
    apply parseFloat_shape_core _ _ _ _ hD2
    show leadSign ('-' :: (digitCh (D / 10 ^ 12) :: '.' ::
      (padChars 12 (D % 10 ^ 12) ++ ('E' :: intChars e)))) = _
    simp only [leadSign, if_true]

theorem parseFloat_sci12_zero : parseFloat (sci12 0) = some 0 := by
  simp +decide [sci12, parseFloat, leadFloat, leadSign, fracSplit, expDispatch, expPart,
    natOfDigits, digitVal, isDigitCh, intChars, natChars, natDigits, natDigitsAux,
    List.takeWhile, List.dropWhile, List.foldl]

theorem abs_intCast_mul_zpow (m : ℤ) (ex : ℤ) :
    |(m : ℚ) * (10 : ℚ) ^ (ex - 12)| = (m.natAbs : ℚ) * (10 : ℚ) ^ (ex - 12) := by
  rw [abs_mul, abs_of_pos (zpow_pos (by norm_num : (0:ℚ) < 10) (ex - 12))]
  congr 1
  rw [← Int.cast_abs, Int.abs_eq_natAbs, Int.cast_natCast]

theorem parseFloat_sci12 (q : ℚ) (h : Rep12 q) : parseFloat (sci12 q) = some q := by
  rcases h with h0 | ⟨m, ex, hm1, hm2, hq⟩
  · subst h0
    exact parseFloat_sci12_zero
  · have hten : (10 : ℚ) ≠ 0 := by norm_num
    have hxp : (0 : ℚ) < (10 : ℚ) ^ (ex - 12) := zpow_pos (by norm_num) _
    have hna0 : 0 < m.natAbs := lt_of_lt_of_le (by norm_num) hm1
    have hm0 : m ≠ 0 := by
      intro h0
      rw [h0] at hna0
      simp at hna0
    have hmQ : (m : ℚ) ≠ 0 := Int.cast_ne_zero.mpr hm0
    have hq0 : q ≠ 0 := by
      rw [hq]
      exact mul_ne_zero hmQ (zpow_ne_zero _ hten)
    have habs : |q| = (m.natAbs : ℚ) * (10 : ℚ) ^ (ex - 12) := by
      rw [hq]
      exact abs_intCast_mul_zpow m ex
    have hnaQ1 : ((10 : ℚ) ^ (12 : ℕ)) ≤ (m.natAbs : ℚ) := by
      exact_mod_cast Nat.cast_le.mpr hm1
    have hnaQ2 : (m.natAbs : ℚ) < (10 : ℚ) ^ (13 : ℕ) := by
      exact_mod_cast Nat.cast_lt.mpr hm2
    have hE : sciExp |q| = ex := by
      apply sciExp_unique
      · rw [habs]
        calc (10 : ℚ) ^ ex = (10 : ℚ) ^ (12 : ℤ) * (10 : ℚ) ^ (ex - 12) := by
              rw [← zpow_add₀ hten]; ring_nf
          _ ≤ (m.natAbs : ℚ) * (10 : ℚ) ^ (ex - 12) := by
              apply mul_le_mul_of_nonneg_right _ (le_of_lt hxp)
              rw [show ((10 : ℚ) ^ (12 : ℤ)) = (10 : ℚ) ^ (12 : ℕ) from by norm_num]
              exact hnaQ1
      · rw [habs]
        calc (m.natAbs : ℚ) * (10 : ℚ) ^ (ex - 12)
              < (10 : ℚ) ^ (13 : ℤ) * (10 : ℚ) ^ (ex - 12) := by
              apply mul_lt_mul_of_pos_right _ hxp
              rw [show ((10 : ℚ) ^ (13 : ℤ)) = (10 : ℚ) ^ (13 : ℕ) from by norm_num]
              exact hnaQ2
          _ = (10 : ℚ) ^ (ex + 1) := by
              rw [← zpow_add₀ hten]; ring_nf
    have hD : sciMant |q| ex = m.natAbs := by
      unfold sciMant
      rw [habs]
      have hred : (m.natAbs : ℚ) * (10 : ℚ) ^ (ex - 12) * (10 : ℚ) ^ ((12 : ℤ) - ex) =
          (m.natAbs : ℚ) := by
        rw [mul_assoc, ← zpow_add₀ hten]
        norm_num
      rw [hred, Int.floor_natCast, Int.toNat_natCast]
    have hsci : sci12 q = (if q < 0 then ['-'] else []) ++
        (digitCh (m.natAbs / 10 ^ 12) :: '.' :: padChars 12 (m.natAbs % 10 ^ 12)) ++
        ('E' :: intChars ex) := by
      simp only [sci12, hq0, if_false, hE, hD]
    rw [hsci]
    by_cases hqneg : q < 0
    · rw [if_pos hqneg]
      have hmneg : m < 0 := by
        by_contra hge
        push_neg at hge
        have : (0 : ℚ) ≤ q := by
          rw [hq]
          exact mul_nonneg (by exact_mod_cast hge) (le_of_lt hxp)
        linarith
      have hshape := parseFloat_sciShape true m.natAbs ex hm2
      simp only [if_pos] at hshape
      rw [hshape]
      congr 1
      have hcast : (m : ℚ) = -(m.natAbs : ℚ) := by
        rw [← Int.cast_natCast, ← Int.cast_neg]
        congr 1
        omega
      rw [hq, hcast]
      rw [zpow_sub₀ hten]
      rw [show ((10 : ℚ) ^ (12 : ℤ)) = (10 : ℚ) ^ (12 : ℕ) from by norm_num]
      ring
    · rw [if_neg hqneg]
      have hmpos : 0 < m := by
        rcases lt_trichotomy m 0 with hlt | heq | hgt
        · exfalso
          apply hqneg
          rw [hq]
          apply mul_neg_of_neg_of_pos _ hxp
          exact_mod_cast hlt
        · exact absurd heq hm0
        · exact hgt
      have hshape := parseFloat_sciShape false m.natAbs ex hm2
      rw [show ((if (false : Bool) = true then (['-'] : Chars) else [])) = [] from rfl]
        at hshape
      rw [show ((if (false : Bool) = true then (-1 : ℚ) else 1)) = 1 from rfl] at hshape
      rw [hshape]
      congr 1
      have hcast : (m : ℚ) = (m.natAbs : ℚ) := by
        rw [← Int.cast_natCast]
        congr 1
        omega
      rw [hq, hcast]
      rw [zpow_sub₀ hten]
      rw [show ((10 : ℚ) ^ (12 : ℤ)) = (10 : ℚ) ^ (12 : ℕ) from by norm_num]
      ring

theorem parseFloat_sci12_total (q : ℚ) : ∃ r, parseFloat (sci12 q) = some r := by
  by_cases hq0 : q = 0
  · exact ⟨0, by rw [hq0]; exact parseFloat_sci12_zero⟩
  · have ha : 0 < |q| := abs_pos.mpr hq0
    obtain ⟨hb1, hb2⟩ := sciMant_bounds |q| ha
    have hsci : sci12 q = (if q < 0 then ['-'] else []) ++
        (digitCh (sciMant |q| (sciExp |q|) / 10 ^ 12) :: '.' ::
          padChars 12 (sciMant |q| (sciExp |q|) % 10 ^ 12)) ++
        ('E' :: intChars (sciExp |q|)) := by
      simp only [sci12, hq0, if_false]
    rw [hsci]
    by_cases hqneg : q < 0
    · rw [if_pos hqneg]
      have hshape := parseFloat_sciShape true (sciMant |q| (sciExp |q|)) (sciExp |q|) hb2
      simp only [if_pos] at hshape
      exact ⟨_, hshape⟩
    · rw [if_neg hqneg]
      have hshape := parseFloat_sciShape false (sciMant |q| (sciExp |q|)) (sciExp |q|) hb2
      rw [show ((if (false : Bool) = true then (['-'] : Chars) else [])) = [] from rfl]
        at hshape
      exact ⟨_, hshape⟩

theorem intChars_nows (z : ℤ) : ∀ c ∈ intChars z, wsp c = false := by
  intro c hc
  by_cases hz : z < 0
  · simp only [intChars, if_pos hz, List.mem_cons] at hc
    rcases hc with rfl | hc
    · rfl
    · exact natChars_nows _ c hc
  · simp only [intChars, if_neg hz] at hc
    exact natChars_nows _ c hc

theorem sci12_nows (q : ℚ) : ∀ c ∈ sci12 q, wsp c = false := by
  by_cases hq0 : q = 0
  · subst hq0
    decide
  · have ha : 0 < |q| := abs_pos.mpr hq0
    obtain ⟨hb1, hb2⟩ := sciMant_bounds |q| ha
    have hd0 : sciMant |q| (sciExp |q|) / 10 ^ 12 < 10 := by
      have h13 : (10 : ℕ) ^ 13 = 10000000000000 := by norm_num
      have h12 : (10 : ℕ) ^ 12 = 1000000000000 := by norm_num
      omega
    intro c hc
    simp only [sci12, hq0, if_false, List.mem_append, List.mem_cons] at hc
    rcases hc with (h1 | (rfl | rfl | h2)) | (rfl | h3)
    · by_cases hqn : q < 0
      · rw [if_pos hqn] at h1
        rcases List.mem_singleton.mp h1 with rfl
        rfl
      · rw [if_neg hqn] at h1
        simp at h1
    · exact wsp_digitCh _ hd0
    · rfl
    · exact padChars_nows 12 _ c h2
    · rfl
    · exact intChars_nows _ c h3

theorem sci12_ne (q : ℚ) : sci12 q ≠ [] := by
  by_cases hq0 : q = 0
  · subst hq0
    decide
  · simp only [sci12, hq0, if_false]
    simp

theorem collectRecords_seg (ds tail : List Chars) (k : Chars)
    (acc : List (Chars × List Chars))
    (h : ∀ l ∈ ds, begins "@".data (trimChars l) = false) :
    collectRecords (ds ++ tail) (some k) acc =
      collectRecords tail (some k)
        (List.foldl (fun a l => pushRecord a k (trimChars l)) acc ds) := by
  induction ds generalizing acc with
  | nil => simp
  | cons l ls ih =>
    have hl := h l (List.mem_cons_self l ls)
    simp only [List.cons_append, collectRecords, hl, Bool.false_eq_true, if_false,
      List.foldl]
    exact ih _ (fun x hx => h x (List.mem_cons_of_mem l hx))

theorem pushRecord_fresh (acc : List (Chars × List Chars)) (k : Chars) (v : Chars)
    (hf : ∀ e ∈ acc, e.1 ≠ k) :
    pushRecord acc k v = acc ++ [(k, [v])] := by
  induction acc with
  | nil => rfl
  | cons e rest ih =>
    obtain ⟨k0, vs⟩ := e
    have hk0 : k0 ≠ k := hf (k0, vs) (List.mem_cons_self _ _)
    simp only [pushRecord, if_neg hk0, List.cons_append, List.cons.injEq, true_and]
    exact ih (fun x hx => hf x (List.mem_cons_of_mem _ hx))

theorem pushRecord_append_last (acc : List (Chars × List Chars)) (k : Chars)
    (v : Chars) (vs : List Chars) (hf : ∀ e ∈ acc, e.1 ≠ k) :
    pushRecord (acc ++ [(k, vs)]) k v = acc ++ [(k, vs ++ [v])] := by
  induction acc with
  | nil => simp [pushRecord]
  | cons e rest ih =>
    obtain ⟨k0, vs0⟩ := e
    have hk0 : k0 ≠ k := hf (k0, vs0) (List.mem_cons_self _ _)
    simp only [List.cons_append, pushRecord, if_neg hk0, List.cons.injEq, true_and]
    exact ih (fun x hx => hf x (List.mem_cons_of_mem _ hx))

theorem foldl_pushRecord_acc (ls : List Chars) (k : Chars) (vs : List Chars)
    (acc : List (Chars × List Chars)) (hf : ∀ e ∈ acc, e.1 ≠ k) :
    List.foldl (fun a l => pushRecord a k (trimChars l)) (acc ++ [(k, vs)]) ls =
      acc ++ [(k, vs ++ ls.map trimChars)] := by
  induction ls generalizing vs with
  | nil => simp
  | cons l ls ih =>
    simp only [List.foldl, List.map]
    rw [pushRecord_append_last acc k (trimChars l) vs hf, ih (vs ++ [trimChars l])]
    simp

theorem foldl_pushRecord_full (ls : List Chars) (k : Chars)
    (acc : List (Chars × List Chars)) (hf : ∀ e ∈ acc, e.1 ≠ k) (hne : ls ≠ []) :
    List.foldl (fun a l => pushRecord a k (trimChars l)) acc ls =
      acc ++ [(k, ls.map trimChars)] := by
  cases ls with
  | nil => exact absurd rfl hne
  | cons l ls =>
    simp only [List.foldl, List.map]
    rw [pushRecord_fresh acc k (trimChars l) hf, foldl_pushRecord_acc ls k _ acc hf]
    simp

theorem collect_mkStream (blocks : List (Chars × List Chars)) (hdr : Option Chars)
    (acc : List (Chars × List Chars))
    (hhdr : ∀ b ∈ blocks, trimChars b.1 = b.1 ∧ begins "@".data b.1 = true)
    (hdata : ∀ b ∈ blocks, ∀ l ∈ b.2, trimChars l = l ∧ begins "@".data l = false)
    (hfresh : ∀ b ∈ blocks, ∀ e ∈ acc, e.1 ≠ b.1)
    (hdist : blocks.Pairwise (fun a b => a.1 ≠ b.1)) :
    collectRecords (mkStream blocks) hdr acc =
      acc ++ blocks.filter (fun b => !b.2.isEmpty) := by
  induction blocks generalizing hdr acc with
  | nil => simp [mkStream, collectRecords]
  | cons b rest ih =>
    obtain ⟨k, ds⟩ := b
    have hh := hhdr (k, ds) (List.mem_cons_self _ _)
    have hdk := hdata (k, ds) (List.mem_cons_self _ _)
    have hms : mkStream ((k, ds) :: rest) = k :: (ds ++ mkStream rest) := by
      simp [mkStream]
    rw [hms]
    simp only [collectRecords, hh.1, hh.2, if_pos]
    rw [collectRecords_seg ds (mkStream rest) k acc
      (fun l hl => by rw [(hdk l hl).1]; exact (hdk l hl).2)]
    have hhdr2 : ∀ b ∈ rest, trimChars b.1 = b.1 ∧ begins "@".data b.1 = true :=
      fun b hb => hhdr b (List.mem_cons_of_mem _ hb)
    have hdata2 : ∀ b ∈ rest, ∀ l ∈ b.2, trimChars l = l ∧ begins "@".data l = false :=
      fun b hb => hdata b (List.mem_cons_of_mem _ hb)
    have hdist2 : rest.Pairwise (fun a b => a.1 ≠ b.1) :=
      (List.pairwise_cons.mp hdist).2
    have hkrest : ∀ b ∈ rest, k ≠ b.1 := by
      intro b hb
      exact (List.pairwise_cons.mp hdist).1 b hb
    by_cases hds : ds = []
    · subst hds
      simp only [List.foldl]
      rw [ih (some k) acc hhdr2 hdata2
        (fun b hb e he => hfresh b (List.mem_cons_of_mem _ hb) e he) hdist2]
      simp
    · have hfk : ∀ e ∈ acc, e.1 ≠ k :=
        fun e he => hfresh (k, ds) (List.mem_cons_self _ _) e he
      rw [foldl_pushRecord_full ds k acc hfk hds]
      have hmap : ds.map trimChars = ds := by
        have h1 : ds.map trimChars = ds.map id := by
          apply List.map_congr_left
          intro a ha
          exact (hdk a ha).1
        rw [h1, List.map_id]
      rw [hmap]
      have hfresh2 : ∀ b ∈ rest, ∀ e ∈ acc ++ [(k, ds)], e.1 ≠ b.1 := by
        intro b hb e he
        rcases List.mem_append.mp he with h1 | h2
        · exact hfresh b (List.mem_cons_of_mem _ hb) e h1
        · rcases List.mem_singleton.mp h2 with rfl
          exact hkrest b hb
      rw [ih (some k) (acc ++ [(k, ds)]) hhdr2 hdata2 hfresh2 hdist2]
      have hdse : (ds.isEmpty : Bool) = false := by
        cases ds with
        | nil => exact absurd rfl hds
        | cons a b => rfl
      simp [hdse]

theorem processRecords_append (bs1 bs2 : List (Chars × List Chars)) (r : Computed) :
    processRecords (bs1 ++ bs2) r =
      match processRecords bs1 r with
      | Res.ok r2 => processRecords bs2 r2
      | Res.err => Res.err
      | Res.panic => Res.panic := by
  induction bs1 generalizing r with
  | nil => rfl
  | cons b rest ih =>
    obtain ⟨k, ls⟩ := b
    simp only [List.cons_append, processRecords]
    cases applyRecord r k ls with
    | ok r2 => exact ih r2
    | err => rfl
    | panic => rfl

theorem begins_false_head (p : Char) (ps : Chars) (c : Char) (cs : Chars)
    (h : p ≠ c) : begins (p :: ps) (c :: cs) = false := by
  simp [begins, h]

theorem digitCh_ne_hash (d : ℕ) (hd : d < 10) : digitCh d ≠ '#' := by
  interval_cases d <;> decide

theorem digitCh_ne_at (d : ℕ) (hd : d < 10) : digitCh d ≠ '@' := by
  interval_cases d <;> decide

theorem sci12_cons (q : ℚ) : ∃ c t, sci12 q = c :: t ∧ c ≠ '#' ∧ c ≠ '@' ∧
    wsp c = false := by
  by_cases hq0 : q = 0
  · subst hq0
    exact ⟨'0', (sci12 0).tail, by decide, by decide, by decide, by decide⟩
  · have ha : 0 < |q| := abs_pos.mpr hq0
    obtain ⟨hb1, hb2⟩ := sciMant_bounds |q| ha
    have hd0 : sciMant |q| (sciExp |q|) / 10 ^ 12 < 10 := by
      have h13 : (10 : ℕ) ^ 13 = 10000000000000 := by norm_num
      have h12 : (10 : ℕ) ^ 12 = 1000000000000 := by norm_num
      omega
    by_cases hqn : q < 0
    · refine ⟨'-', (digitCh (sciMant |q| (sciExp |q|) / 10 ^ 12) :: '.' ::
        padChars 12 (sciMant |q| (sciExp |q|) % 10 ^ 12)) ++
        ('E' :: intChars (sciExp |q|)), ?_, by decide, by decide, by decide⟩
      simp [sci12, hq0, hqn]
    · refine ⟨digitCh (sciMant |q| (sciExp |q|) / 10 ^ 12), ('.' ::
        padChars 12 (sciMant |q| (sciExp |q|) % 10 ^ 12)) ++
        ('E' :: intChars (sciExp |q|)), ?_, digitCh_ne_hash _ hd0,
        digitCh_ne_at _ hd0, wsp_digitCh _ hd0⟩
      simp [sci12, hq0, hqn]

theorem line_facts (c : Char) (t : Chars) (hh : c ≠ '#') (ha : c ≠ '@')
    (htr : trimChars (c :: t) = c :: t) :
    begins "@".data (c :: t) = false ∧ keepLine (c :: t) = true ∧
      isMarkerLine (c :: t) = false := by
  refine ⟨?_, ?_, ?_⟩
  · rw [show "@".data = ['@'] from rfl]
    exact begins_false_head '@' [] c t (Ne.symm ha)
  · rw [keepLine, htr]
    rw [show "#".data = ['#'] from rfl]
    rw [begins_false_head '#' [] c t (Ne.symm hh)]
    rfl
  · rw [isMarkerLine, show "@model_properties_format_version".data =
      '@' :: "model_properties_format_version".data from rfl]
    exact begins_false_head '@' _ c t (Ne.symm ha)

theorem trim_sci12 (q : ℚ) : trimChars (sci12 q) = sci12 q :=
  trim_plain_tok (sci12 q) (sci12_ne q) (sci12_nows q)

theorem sci12_line (q : ℚ) : (trimChars (sci12 q) = sci12 q ∧
      begins "@".data (sci12 q) = false) ∧
    keepLine (sci12 q) = true ∧ isMarkerLine (sci12 q) = false := by
  obtain ⟨c, t, heq, hh, ha, hw⟩ := sci12_cons q
  have htr := trim_sci12 q
  rw [heq] at htr ⊢
  obtain ⟨h1, h2, h3⟩ := line_facts c t hh ha htr
  exact ⟨⟨htr, h1⟩, h2, h3⟩

theorem tripleLine_assoc (tr : ℚ × ℚ × ℚ) :
    tripleLine tr = sci12 tr.1 ++ ' ' :: (sci12 tr.2.1 ++ ' ' :: sci12 tr.2.2) := by
  simp [tripleLine]

theorem trim_tripleLine (tr : ℚ × ℚ × ℚ) :
    trimChars (tripleLine tr) = tripleLine tr := by
  obtain ⟨c, t, heq, hh, ha, hw⟩ := sci12_cons tr.1
  rw [tripleLine_assoc, heq]
  rw [show (c :: t) ++ ' ' :: (sci12 tr.2.1 ++ ' ' :: sci12 tr.2.2) =
    c :: ((t ++ ' ' :: sci12 tr.2.1 ++ [' ']) ++ sci12 tr.2.2) from by simp]
  exact trim_app c _ _ hw (sci12_ne _) (sci12_nows _)

theorem tripleLine_line (tr : ℚ × ℚ × ℚ) :
    (trimChars (tripleLine tr) = tripleLine tr ∧
      begins "@".data (tripleLine tr) = false) ∧
    keepLine (tripleLine tr) = true ∧ isMarkerLine (tripleLine tr) = false := by
  obtain ⟨c, t, heq, hh, ha, hw⟩ := sci12_cons tr.1
  have htr := trim_tripleLine tr
  have hcons : tripleLine tr = c :: (t ++ ' ' :: (sci12 tr.2.1 ++ ' ' :: sci12 tr.2.2)) := by
    rw [tripleLine_assoc, heq]
    rfl
  rw [hcons] at htr ⊢
  obtain ⟨h1, h2, h3⟩ := line_facts c _ hh ha htr
  exact ⟨⟨htr, h1⟩, h2, h3⟩

theorem atomLine_assoc (a : Chars × (ℚ × ℚ × ℚ)) :
    atomLine a = a.1 ++ ' ' :: tripleLine a.2 := rfl

theorem trim_atomLine (a : Chars × (ℚ × ℚ × ℚ)) (hs : validSym a.1) :
    trimChars (atomLine a) = atomLine a := by
  obtain ⟨c, t, heq⟩ : ∃ c t, a.1 = c :: t := by
    cases hv : a.1 with
    | nil => exact absurd hv hs.1
    | cons c t => exact ⟨c, t, rfl⟩
  have hw : wsp c = false := hs.2.1 c (by rw [heq]; exact List.mem_cons_self _ _)
  rw [atomLine_assoc, heq]
  rw [show (c :: t) ++ ' ' :: tripleLine a.2 =
    c :: ((t ++ [' '] ++ (sci12 a.2.1 ++ ' ' :: sci12 a.2.2.1 ++ [' '])) ++
      sci12 a.2.2.2) from by simp [tripleLine]]
  exact trim_app c _ _ hw (sci12_ne _) (sci12_nows _)

theorem atomLine_line (a : Chars × (ℚ × ℚ × ℚ)) (hs : validSym a.1) :
    (trimChars (atomLine a) = atomLine a ∧
      begins "@".data (atomLine a) = false) ∧
    keepLine (atomLine a) = true ∧ isMarkerLine (atomLine a) = false := by
  obtain ⟨c, t, heq⟩ : ∃ c t, a.1 = c :: t := by
    cases hv : a.1 with
    | nil => exact absurd hv hs.1
    | cons c t => exact ⟨c, t, rfl⟩
  have hh : c ≠ '#' := by
    intro hc
    have := hs.2.2.2
    rw [heq, hc, show "#".data = ['#'] from rfl] at this
    simp [begins] at this
  have ha : c ≠ '@' := by
    intro hc
    have := hs.2.2.1
    rw [heq, hc, show "@".data = ['@'] from rfl] at this
    simp [begins] at this
  have htr := trim_atomLine a hs
  have hcons : atomLine a = c :: (t ++ ' ' :: tripleLine a.2) := by
    rw [atomLine_assoc, heq]
    rfl
  rw [hcons] at htr ⊢
  obtain ⟨h1, h2, h3⟩ := line_facts c _ hh ha htr
  exact ⟨⟨htr, h1⟩, h2, h3⟩

theorem splitWs_tripleLine (tr : ℚ × ℚ × ℚ) :
    splitWs (tripleLine tr) = [sci12 tr.1, sci12 tr.2.1, sci12 tr.2.2] := by
  rw [tripleLine_assoc]
  rw [splitWs_token_sp _ _ (sci12_ne _) (sci12_nows _)]
  rw [splitWs_token_sp _ _ (sci12_ne _) (sci12_nows _)]
  rw [splitWs_token_end _ (sci12_ne _) (sci12_nows _)]

theorem parseEnergySection_sci (e : ℚ) (hrep : Rep12 e) :
    parseEnergySection 1 [sci12 e] = Res.ok e := by
  simp only [parseEnergySection, trim_sci12, parseFloat_sci12 e hrep, mul_one]

theorem parseForcesLines_sci (fs : List (ℚ × ℚ × ℚ))
    (h : ∀ t ∈ fs, Rep12 t.1 ∧ Rep12 t.2.1 ∧ Rep12 t.2.2) :
    parseForcesLines 1 (fs.map tripleLine) = Res.ok fs := by
  induction fs with
  | nil => rfl
  | cons t fs ih =>
    have ht := h t (List.mem_cons_self _ _)
    simp only [List.map, parseForcesLines, splitWs_tripleLine,
      parseFloat_sci12 t.1 ht.1, parseFloat_sci12 t.2.1 ht.2.1,
      parseFloat_sci12 t.2.2 ht.2.2,
      ih (fun x hx => h x (List.mem_cons_of_mem _ hx)), mul_one]

theorem parseDipoleLine_tripleLine (d : ℚ × ℚ × ℚ)
    (h : Rep12 d.1 ∧ Rep12 d.2.1 ∧ Rep12 d.2.2) :
    parseDipoleLine 1 (tripleLine d) = Res.ok d := by
  simp only [parseDipoleLine, splitWs_tripleLine, idxParse, List.get?,
    parseFloat_sci12 d.1 h.1, parseFloat_sci12 d.2.1 h.2.1,
    parseFloat_sci12 d.2.2 h.2.2, mul_one]

theorem parseDipoleSection_sci (d : ℚ × ℚ × ℚ)
    (h : Rep12 d.1 ∧ Rep12 d.2.1 ∧ Rep12 d.2.2) :
    parseDipoleSection 1 [tripleLine d] = Res.ok d := by
  simp only [parseDipoleSection, trim_tripleLine]
  exact parseDipoleLine_tripleLine d h

theorem moleculeFromPxyz_total (m : List (Chars × (ℚ × ℚ × ℚ)))
    (hsym : ∀ a ∈ m, validSym a.1) :
    ∃ m2, moleculeFromPxyz (m.map atomLine) = Res.ok m2 ∧
      m2.length = m.length := by
  induction m with
  | nil => exact ⟨[], rfl, rfl⟩
  | cons a m ih =>
    have hs := hsym a (List.mem_cons_self _ _)
    obtain ⟨m2, hm2, hlen⟩ := ih (fun x hx => hsym x (List.mem_cons_of_mem _ hx))
    obtain ⟨r1, h1⟩ := parseFloat_sci12_total a.2.1
    obtain ⟨r2, h2⟩ := parseFloat_sci12_total a.2.2.1
    obtain ⟨r3, h3⟩ := parseFloat_sci12_total a.2.2.2
    have hsplit : splitWs (atomLine a) =
        [a.1, sci12 a.2.1, sci12 a.2.2.1, sci12 a.2.2.2] := by
      rw [atomLine_assoc, splitWs_token_sp _ _ hs.1 hs.2.1, splitWs_tripleLine]
    refine ⟨(a.1, (r1, r2, r3)) :: m2, ?_, by simp [hlen]⟩
    simp only [List.map, moleculeFromPxyz, atomFromLine, hsplit, h1, h2, h3, hm2]

theorem applyRecord_energy (r : Computed) (e : ℚ) (hrep : Rep12 e) :
    applyRecord r "@energy".data [sci12 e] = Res.ok { r with energy := some e } := by
  have hh : headerFromStr "@energy".data = Res.ok ⟨"energy".data, (1 : ℚ)⟩ := by decide
  simp only [applyRecord, hh]
  rw [if_pos trivial, parseEnergySection_sci e hrep]

theorem applyRecord_forces (r : Computed) (fs : List (ℚ × ℚ × ℚ))
    (hrep : ∀ t ∈ fs, Rep12 t.1 ∧ Rep12 t.2.1 ∧ Rep12 t.2.2) :
    applyRecord r "@forces".data (fs.map tripleLine) =
      Res.ok { r with forces := some fs } := by
  have hh : headerFromStr "@forces".data = Res.ok ⟨"forces".data, (1 : ℚ)⟩ := by decide
  simp only [applyRecord, hh]
  rw [if_neg (by decide), if_pos trivial, parseForcesLines_sci fs hrep]

theorem applyRecord_dipole (r : Computed) (d : ℚ × ℚ × ℚ)
    (hrep : Rep12 d.1 ∧ Rep12 d.2.1 ∧ Rep12 d.2.2) :
    applyRecord r "@dipole".data [tripleLine d] =
      Res.ok { r with dipole := some d } := by
  have hh : headerFromStr "@dipole".data = Res.ok ⟨"dipole".data, (1 : ℚ)⟩ := by decide
  simp only [applyRecord, hh]
  rw [if_neg (by decide), if_neg (by decide), if_neg (by decide), if_pos trivial,
    parseDipoleSection_sci d hrep]

theorem applyRecord_structure (r : Computed) (m : List (Chars × (ℚ × ℚ × ℚ)))
    (hsym : ∀ a ∈ m, validSym a.1) :
    ∃ m2, applyRecord r "@structure".data (m.map atomLine) =
      Res.ok { r with molecule := some m2 } := by
  obtain ⟨m2, hm2, _⟩ := moleculeFromPxyz_total m hsym
  refine ⟨m2, ?_⟩
  have hh : headerFromStr "@structure".data =
      Res.ok ⟨"structure".data, (1 : ℚ)⟩ := by decide
  simp only [applyRecord, hh]
  rw [if_neg (by decide), if_neg (by decide), if_pos trivial, hm2]

theorem stage_structure (oe : Option ℚ) (ofs : Option (List (ℚ × ℚ × ℚ)))
    (od : Option (ℚ × ℚ × ℚ)) (ofc : Option (List (ℚ × ℚ × ℚ)))
    (om : Option (List (Chars × (ℚ × ℚ × ℚ))))
    (hsym : ∀ m, om = some m → ∀ a ∈ m, validSym a.1) :
    ∃ om2, processRecords ((structBlock om).filter
      (fun b => !b.2.isEmpty)) ⟨oe, ofs, od, none, ofc⟩ =
      Res.ok ⟨oe, ofs, od, om2, ofc⟩ := by
  cases om with
  | none => exact ⟨none, rfl⟩
  | some m =>
    cases m with
    | nil => exact ⟨none, rfl⟩
    | cons a am =>
      obtain ⟨m2, hm2⟩ := applyRecord_structure ⟨oe, ofs, od, none, ofc⟩ (a :: am)
        (hsym (a :: am) rfl)
      refine ⟨some m2, ?_⟩
      show processRecords ([("@structure".data, (a :: am).map atomLine)].filter
        (fun b => !b.2.isEmpty)) _ = _
      rw [show ([("@structure".data, (a :: am).map atomLine)].filter
        (fun b => !b.2.isEmpty)) = [("@structure".data, (a :: am).map atomLine)]
        from by simp]
      simp only [processRecords]
      rw [hm2]

theorem stage_energy (ofs : Option (List (ℚ × ℚ × ℚ))) (od : Option (ℚ × ℚ × ℚ))
    (om : Option (List (Chars × (ℚ × ℚ × ℚ)))) (ofc : Option (List (ℚ × ℚ × ℚ)))
    (oe : Option ℚ) (hrep : ∀ e, oe = some e → Rep12 e) :
    processRecords ((energyBlock oe).filter
      (fun b => !b.2.isEmpty)) ⟨none, ofs, od, om, ofc⟩ =
      Res.ok ⟨oe, ofs, od, om, ofc⟩ := by
  cases oe with
  | none => rfl
  | some e =>
    simp only [List.filter, processRecords,
      applyRecord_energy ⟨none, ofs, od, om, ofc⟩ e (hrep e rfl)]

theorem stage_forces (oe : Option ℚ) (od : Option (ℚ × ℚ × ℚ))
    (om : Option (List (Chars × (ℚ × ℚ × ℚ)))) (ofc : Option (List (ℚ × ℚ × ℚ)))
    (ofs : Option (List (ℚ × ℚ × ℚ))) (hnil : ofs ≠ some [])
    (hrep : ∀ fs, ofs = some fs → ∀ t ∈ fs, Rep12 t.1 ∧ Rep12 t.2.1 ∧ Rep12 t.2.2) :
    processRecords ((forcesBlock ofs).filter
      (fun b => !b.2.isEmpty)) ⟨oe, none, od, om, ofc⟩ =
      Res.ok ⟨oe, ofs, od, om, ofc⟩ := by
  cases ofs with
  | none => rfl
  | some fs =>
    cases fs with
    | nil => exact absurd rfl hnil
    | cons t ts =>
      show processRecords ([("@forces".data, (t :: ts).map tripleLine)].filter
        (fun b => !b.2.isEmpty)) _ = _
      rw [show ([("@forces".data, (t :: ts).map tripleLine)].filter
        (fun b => !b.2.isEmpty)) = [("@forces".data, (t :: ts).map tripleLine)]
        from by simp]
      simp only [processRecords]
      rw [applyRecord_forces ⟨oe, none, od, om, ofc⟩ (t :: ts) (hrep (t :: ts) rfl)]

theorem stage_dipole (oe : Option ℚ) (ofr : Option (List (ℚ × ℚ × ℚ)))
    (om : Option (List (Chars × (ℚ × ℚ × ℚ)))) (ofc : Option (List (ℚ × ℚ × ℚ)))
    (od : Option (ℚ × ℚ × ℚ))
    (hrep : ∀ d, od = some d → Rep12 d.1 ∧ Rep12 d.2.1 ∧ Rep12 d.2.2) :
    processRecords ((dipoleBlock od).filter
      (fun b => !b.2.isEmpty)) ⟨oe, ofr, none, om, ofc⟩ =
      Res.ok ⟨oe, ofr, od, om, ofc⟩ := by
  cases od with
  | none => rfl
  | some d =>
    simp only [List.filter, processRecords,
      applyRecord_dipole ⟨oe, ofr, none, om, ofc⟩ d (hrep d rfl)]

theorem fieldBlocks_mem (r : Computed) (b : Chars × List Chars)
    (hb : b ∈ fieldBlocks r) :
    (∃ m, r.molecule = some m ∧ b = ("@structure".data, m.map atomLine)) ∨
    (∃ e, r.energy = some e ∧ b = ("@energy".data, [sci12 e])) ∨
    (∃ fs, r.forces = some fs ∧ b = ("@forces".data, fs.map tripleLine)) ∨
    (∃ d, r.dipole = some d ∧ b = ("@dipole".data, [tripleLine d])) := by
  simp only [fieldBlocks, List.mem_append] at hb
  rcases hb with ((h | h) | h) | h
  · cases hm : r.molecule with
    | none => rw [hm] at h; simp [structBlock] at h
    | some m =>
      rw [hm] at h
      simp only [structBlock, List.mem_singleton] at h
      exact Or.inl ⟨m, rfl, h⟩
  · cases he : r.energy with
    | none => rw [he] at h; simp [energyBlock] at h
    | some e =>
      rw [he] at h
      simp only [energyBlock, List.mem_singleton] at h
      exact Or.inr (Or.inl ⟨e, rfl, h⟩)
  · cases hf : r.forces with
    | none => rw [hf] at h; simp [forcesBlock] at h
    | some fs =>
      rw [hf] at h
      simp only [forcesBlock, List.mem_singleton] at h
      exact Or.inr (Or.inr (Or.inl ⟨fs, rfl, h⟩))
  · cases hd : r.dipole with
    | none => rw [hd] at h; simp [dipoleBlock] at h
    | some d =>
      rw [hd] at h
      simp only [dipoleBlock, List.mem_singleton] at h
      exact Or.inr (Or.inr (Or.inr ⟨d, rfl, h⟩))

theorem fieldBlocks_hdr (r : Computed) :
    ∀ b ∈ fieldBlocks r, trimChars b.1 = b.1 ∧ begins "@".data b.1 = true := by
  intro b hb
  rcases fieldBlocks_mem r b hb with ⟨m, _, rfl⟩ | ⟨e, _, rfl⟩ | ⟨fs, _, rfl⟩ | ⟨d, _, rfl⟩
  · exact ⟨(by decide : trimChars "@structure".data = "@structure".data),
      (by decide : begins "@".data "@structure".data = true)⟩
  · exact ⟨(by decide : trimChars "@energy".data = "@energy".data),
      (by decide : begins "@".data "@energy".data = true)⟩
  · exact ⟨(by decide : trimChars "@forces".data = "@forces".data),
      (by decide : begins "@".data "@forces".data = true)⟩
  · exact ⟨(by decide : trimChars "@dipole".data = "@dipole".data),
      (by decide : begins "@".data "@dipole".data = true)⟩

theorem fieldBlocks_data (r : Computed)
    (hM : ∀ m, r.molecule = some m → ∀ a ∈ m, validSym a.1) :
    ∀ b ∈ fieldBlocks r, ∀ l ∈ b.2, trimChars l = l ∧ begins "@".data l = false := by
  intro b hb l hl
  rcases fieldBlocks_mem r b hb with ⟨m, hm, rfl⟩ | ⟨e, _, rfl⟩ | ⟨fs, _, rfl⟩ | ⟨d, _, rfl⟩
  · simp only [List.mem_map] at hl
    obtain ⟨a, ha, rfl⟩ := hl
    exact (atomLine_line a (hM m hm a ha)).1
  · rcases List.mem_singleton.mp hl with rfl
    exact (sci12_line e).1
  · simp only [List.mem_map] at hl
    obtain ⟨t, _, rfl⟩ := hl
    exact (tripleLine_line t).1
  · rcases List.mem_singleton.mp hl with rfl
    exact (tripleLine_line d).1

theorem fieldBlocks_distinct (r : Computed) :
    (fieldBlocks r).Pairwise (fun a b => a.1 ≠ b.1) := by
  obtain ⟨oe, ofs, od, om, ofc⟩ := r
  cases om <;> cases oe <;> cases ofs <;> cases od <;>
    simp +decide [fieldBlocks, structBlock, energyBlock, forcesBlock, dipoleBlock,
      List.pairwise_cons]

theorem mem_mkStream (bs : List (Chars × List Chars)) (l : Chars)
    (hl : l ∈ mkStream bs) : ∃ b ∈ bs, l = b.1 ∨ l ∈ b.2 := by
  simp only [mkStream, List.mem_flatten, List.mem_map] at hl
  obtain ⟨ls, ⟨b, hb, rfl⟩, hml⟩ := hl
  exact ⟨b, hb, List.mem_cons.mp hml⟩

theorem hdr_mem_mkStream (bs : List (Chars × List Chars)) (b : Chars × List Chars)
    (hb : b ∈ bs) : b.1 ∈ mkStream bs := by
  simp only [mkStream, List.mem_flatten]
  exact ⟨b.1 :: b.2, List.mem_map.mpr ⟨b, hb, rfl⟩, List.mem_cons_self _ _⟩

theorem fieldBlocks_lines (r : Computed)
    (hM : ∀ m, r.molecule = some m → ∀ a ∈ m, validSym a.1) :
    ∀ l ∈ mkStream (fieldBlocks r), keepLine l = true ∧ isMarkerLine l = false := by
  intro l hl
  obtain ⟨b, hb, hcase⟩ := mem_mkStream _ l hl
  rcases fieldBlocks_mem r b hb with ⟨m, hm, rfl⟩ | ⟨e, _, rfl⟩ | ⟨fs, _, rfl⟩ | ⟨d, _, rfl⟩
  · rcases hcase with rfl | hdata
    · exact ⟨(by decide : keepLine "@structure".data = true),
        (by decide : isMarkerLine "@structure".data = false)⟩
    · simp only [List.mem_map] at hdata
      obtain ⟨a, ha, rfl⟩ := hdata
      exact (atomLine_line a (hM m hm a ha)).2
  · rcases hcase with rfl | hdata
    · exact ⟨(by decide : keepLine "@energy".data = true),
        (by decide : isMarkerLine "@energy".data = false)⟩
    · rcases List.mem_singleton.mp hdata with rfl
      exact (sci12_line e).2
  · rcases hcase with rfl | hdata
    · exact ⟨(by decide : keepLine "@forces".data = true),
        (by decide : isMarkerLine "@forces".data = false)⟩
    · simp only [List.mem_map] at hdata
      obtain ⟨t, _, rfl⟩ := hdata
      exact (tripleLine_line t).2
  · rcases hcase with rfl | hdata
    · exact ⟨(by decide : keepLine "@dipole".data = true),
        (by decide : isMarkerLine "@dipole".data = false)⟩
    · rcases List.mem_singleton.mp hdata with rfl
      exact (tripleLine_line d).2

theorem serialize_mkStream (r : Computed) :
    serializeComputed r = versionLine :: mkStream (fieldBlocks r) := by
  obtain ⟨oe, ofs, od, om, ofc⟩ := r
  cases om <;> cases oe <;> cases ofs <;> cases od <;>
    simp [serializeComputed, fieldBlocks, structBlock, energyBlock, forcesBlock,
      dipoleBlock, mkStream]

/-- C5 (amended): the serializer/parser round trip reproduces the energy,
forces and dipole fields exactly for every record whose numeric values are
representable in the serializer's thirteen-significant-digit scientific
format, provided at least one optional field is populated (an all-empty
record serializes to the bare version marker, which parse_one rejects) and
the forces list is nonempty (a forces section with no data lines never
enters the parsed record map, so some [] comes back as none); atom symbols
must be ordinary tokens.  Hypotheses are those validity conditions; the
conclusion is success plus field reproduction. -/
theorem c5_amended_thm (r : Computed)
    (hne : r.molecule ≠ none ∨ r.energy ≠ none ∨ r.forces ≠ none ∨ r.dipole ≠ none)
    (hnil : r.forces ≠ some [])
    (hE : ∀ e, r.energy = some e → Rep12 e)
    (hF : ∀ fs, r.forces = some fs → ∀ t ∈ fs, Rep12 t.1 ∧ Rep12 t.2.1 ∧ Rep12 t.2.2)
    (hDp : ∀ d, r.dipole = some d → Rep12 d.1 ∧ Rep12 d.2.1 ∧ Rep12 d.2.2)
    (hM : ∀ m, r.molecule = some m → ∀ a ∈ m, validSym a.1) :
    ∃ r2, parse_one (serializeComputed r) = Res.ok r2 ∧
      r2.energy = r.energy ∧ r2.forces = r.forces ∧ r2.dipole = r.dipole := by
  obtain ⟨om2, hA⟩ := stage_structure none none none none r.molecule hM
  have hB := stage_energy none none om2 none r.energy hE
  have hC := stage_forces r.energy none om2 none r.forces hnil hF
  have hD2 := stage_dipole r.energy r.forces om2 none r.dipole hDp
  have hsingle : parse_model_results_single (mkStream (fieldBlocks r)) =
      Res.ok ⟨r.energy, r.forces, r.dipole, om2, none⟩ := by
    unfold parse_model_results_single
    rw [collect_mkStream (fieldBlocks r) none [] (fieldBlocks_hdr r)
      (fieldBlocks_data r hM) (by intro b hb e he; simp at he)
      (fieldBlocks_distinct r)]
    rw [List.nil_append]
    simp only [fieldBlocks, List.filter_append, List.append_assoc]
    rw [processRecords_append, hA]
    show processRecords ((energyBlock r.energy).filter (fun b => !b.2.isEmpty) ++
      ((forcesBlock r.forces).filter (fun b => !b.2.isEmpty) ++
        (dipoleBlock r.dipole).filter (fun b => !b.2.isEmpty)))
      ⟨none, none, none, om2, none⟩ = _
    rw [processRecords_append, hB]
    show processRecords ((forcesBlock r.forces).filter (fun b => !b.2.isEmpty) ++
      (dipoleBlock r.dipole).filter (fun b => !b.2.isEmpty))
      ⟨r.energy, none, none, om2, none⟩ = _
    rw [processRecords_append, hC]
    show processRecords ((dipoleBlock r.dipole).filter (fun b => !b.2.isEmpty))
      ⟨r.energy, r.forces, none, om2, none⟩ = _
    exact hD2
  have hlines := fieldBlocks_lines r hM
  have hbody : mkStream (fieldBlocks r) ≠ [] := by
    rcases hne with h | h | h | h
    · cases hv : r.molecule with
      | none => exact absurd hv h
      | some m =>
        have hmem : ("@structure".data, m.map atomLine) ∈ fieldBlocks r := by
          simp [fieldBlocks, structBlock, hv]
        have := hdr_mem_mkStream _ _ hmem
        intro hcon
        rw [hcon] at this
        simp at this
    · cases hv : r.energy with
      | none => exact absurd hv h
      | some e =>
        have hmem : ("@energy".data, [sci12 e]) ∈ fieldBlocks r := by
          simp [fieldBlocks, energyBlock, hv]
        have := hdr_mem_mkStream _ _ hmem
        intro hcon
        rw [hcon] at this
        simp at this
    · cases hv : r.forces with
      | none => exact absurd hv h
      | some fs =>
        have hmem : ("@forces".data, fs.map tripleLine) ∈ fieldBlocks r := by
          simp [fieldBlocks, forcesBlock, hv]
        have := hdr_mem_mkStream _ _ hmem
        intro hcon
        rw [hcon] at this
        simp at this
    · cases hv : r.dipole with
      | none => exact absurd hv h
      | some d =>
        have hmem : ("@dipole".data, [tripleLine d]) ∈ fieldBlocks r := by
          simp [fieldBlocks, dipoleBlock, hv]
        have := hdr_mem_mkStream _ _ hmem
        intro hcon
        rw [hcon] at this
        simp at this
  have hpmr := parse_stream_one_doc (mkStream (fieldBlocks r))
    (fun l hl => (hlines l hl).1) (fun l hl => (hlines l hl).2) hbody
  have hres : parse_model_results (versionLine :: mkStream (fieldBlocks r)) =
      Res.ok [⟨r.energy, r.forces, r.dipole, om2, none⟩] := by
    rw [hpmr, hsingle]
  refine ⟨⟨r.energy, r.forces, r.dipole, om2, none⟩, ?_, rfl, rfl, rfl⟩
  rw [serialize_mkStream r]
  unfold parse_one
  rw [hres]
  rfl

/-- C5 counterexample to the literal claim: for the all-empty record
(arbitrary-but-valid per the spec, which allows every optional field to be
absent) parse_one(serialize(r)) fails with an error rather than
succeeding; and for the record whose forces list is present but empty the
round trip succeeds yet silently drops the forces field (some [] comes
back none), so the values are not reproduced. -/
theorem c5_counterexample :
    parse_one (serializeComputed {}) = Res.err ∧
    (parse_one (serializeComputed { forces := some ([] : List (ℚ × ℚ × ℚ)) }) =
        Res.ok {} ∧
      ({} : Computed).forces ≠ some ([] : List (ℚ × ℚ × ℚ))) := by
  refine ⟨by decide, by decide, by decide⟩

/-- C5 witness: the amended round-trip theorem at a concrete record with
energy 3/2, one force row (1, -2, 0), dipole (0, 5, -1/4) and one carbon
atom, all values exactly representable in the serialized format. -/
theorem c5_witness :
    ∃ r2, parse_one (serializeComputed
        { energy := some ((3 : ℚ)/2), forces := some [((1 : ℚ), (-2 : ℚ), (0 : ℚ))],
          dipole := some ((0 : ℚ), (5 : ℚ), (-(1 : ℚ)/4)),
          molecule := some [("C".data, ((1 : ℚ), (2 : ℚ), (3 : ℚ)))] }) = Res.ok r2 ∧
      r2.energy = some ((3 : ℚ)/2) ∧
      r2.forces = some [((1 : ℚ), (-2 : ℚ), (0 : ℚ))] ∧
      r2.dipole = some ((0 : ℚ), (5 : ℚ), (-(1 : ℚ)/4)) := by
  have h32 : Rep12 ((3 : ℚ)/2) :=
    Or.inr ⟨1500000000000, 0, by norm_num, by norm_num, by norm_num⟩
  have h1 : Rep12 (1 : ℚ) :=
    Or.inr ⟨1000000000000, 0, by norm_num, by norm_num, by norm_num⟩
  have hm2 : Rep12 (-2 : ℚ) :=
    Or.inr ⟨-2000000000000, 0, by norm_num, by norm_num, by norm_num⟩
  have h0 : Rep12 (0 : ℚ) := Or.inl rfl
  have h5 : Rep12 (5 : ℚ) :=
    Or.inr ⟨5000000000000, 0, by norm_num, by norm_num, by norm_num⟩
  have hq4 : Rep12 (-(1 : ℚ)/4) :=
    Or.inr ⟨-2500000000000, -1, by norm_num, by norm_num, by norm_num⟩
  exact c5_amended_thm _
    (Or.inl (by simp))
    (by simp)
    (by intro e he; injection he with h; exact h ▸ h32)
    (by
      intro fs hfs
      injection hfs with h
      subst h
      intro t ht
      simp only [List.mem_singleton] at ht
      subst ht
      exact ⟨h1, hm2, h0⟩)
    (by intro d hd; injection hd with h; exact h ▸ ⟨h0, h5, hq4⟩)
    (by
      intro m hm
      injection hm with h
      subst h
      intro a ha
      simp only [List.mem_singleton] at ha
      subst ha
      exact (⟨by decide, by decide, by decide, by decide⟩ : validSym "C".data))
